import Mathlib

/-!
Verification of the anthropic-sender repository (three JavaScript source
files: index.js, compile-epub.js, extract-articles.js).

The code is regex-driven string processing.  We embed the relevant pieces
shallowly: HTML text is a `List Char`, each regular-expression
substitution or scan of the source is translated into an executable
scanner over `List Char` that follows the regex engine's semantics
(leftmost match, case-insensitive where the source uses the `i` flag,
non-overlapping global scan for the `g` flag, greedy-with-backtracking
for `[^>]+` followed by a literal).  Scanners that jump past a matched
region use an explicit fuel argument (bounded by the input length) so
that every definition is kernel-computable.
-/

set_option maxRecDepth 4000

/-- HTML text, JavaScript strings: lists of characters. -/
abbrev Str := List Char

/-- The double-quote character, kept as a named constant. -/
def qc : Char := '"'

/-- ASCII lower-case letter test. -/
def isLowerAlpha (c : Char) : Bool :=
  if 97 ≤ c.toNat ∧ c.toNat ≤ 122 then true else false

/-- Case-insensitive character match against a pattern character `p`
(the `i` flag of the source's regexes): the input character `c` matches
if it equals `p`, or if `p` is a lower-case ASCII letter and `c` is its
upper-case form. -/
def ciEq (p c : Char) : Bool :=
  if c = p then true
  else if isLowerAlpha p ∧ c.toNat + 32 = p.toNat then true else false

/-- Drop a literal pattern from the front of the input, matching
case-insensitively; `none` when the input does not start with the
pattern. -/
def dropPrefixCI : Str → Str → Option Str
  | [], s => some s
  | _ :: _, [] => none
  | p :: ps, c :: cs => if ciEq p c then dropPrefixCI ps cs else none

theorem dropPrefixCI_length {p s r : Str} (h : dropPrefixCI p s = some r) :
    r.length + p.length = s.length := by
  induction p generalizing s with
  | nil => cases s <;> simp [dropPrefixCI] at h <;> simp [h]
  | cons q ps ih =>
    cases s with
    | nil => simp [dropPrefixCI] at h
    | cons c cs =>
      simp only [dropPrefixCI] at h
      split at h
      · have := ih h
        simp [List.length_cons, ← this]
        omega
      · exact absurd h (by simp)

/-- Self-match: a pattern drops from an input that starts with it
verbatim. -/
theorem dropPrefixCI_self (p r : Str) : dropPrefixCI p (p ++ r) = some r := by
  induction p with
  | nil => rfl
  | cons q ps ih => simp [dropPrefixCI, ciEq, ih]

/-- Matching a pattern containing a double quote forces a double quote
in the input (`ciEq qc c` only holds for `c = qc`). -/
theorem dropPrefixCI_quote {p s r : Str} (hq : qc ∈ p)
    (h : dropPrefixCI p s = some r) : qc ∈ s := by
  induction p generalizing s with
  | nil => simp at hq
  | cons q ps ih =>
    cases s with
    | nil => simp [dropPrefixCI] at h
    | cons c cs =>
      simp only [dropPrefixCI] at h
      split at h
      · rename_i hci
        rcases List.mem_cons.mp hq with hq1 | hq2
        · subst hq1
          simp only [ciEq, qc] at hci
          split at hci
          · rename_i hc; subst hc; exact List.mem_cons_self _ _
          · split at hci
            · rename_i hlow
              exact absurd hlow.1 (by decide)
            · simp at hci
        · exact List.mem_cons_of_mem _ (ih hq2 h)
      · exact absurd h (by simp)

/-- Consume `[^>]*>`: skip characters other than a closing angle
bracket, then consume the bracket; `none` when no bracket follows. -/
def skipAttrs : Str → Option Str
  | [] => none
  | c :: cs => if c = '>' then some cs else skipAttrs cs

theorem skipAttrs_length {s r : Str} (h : skipAttrs s = some r) :
    r.length < s.length := by
  induction s with
  | nil => simp [skipAttrs] at h
  | cons c cs ih =>
    simp only [skipAttrs] at h
    split at h
    · cases h; simp
    · exact Nat.lt_trans (ih h) (by simp)

theorem skipAttrs_self {a : Str} (ha : '>' ∉ a) (r : Str) :
    skipAttrs (a ++ '>' :: r) = some r := by
  induction a with
  | nil => simp [skipAttrs]
  | cons c cs ih =>
    have hc : c ≠ '>' := fun h => ha (h ▸ List.mem_cons_self _ _)
    simp only [List.cons_append, skipAttrs, if_neg hc]
    exact ih (fun h => ha (List.mem_cons_of_mem _ h))

/-- Match the opening pattern `<tag[^>]*>` of the source's
region-removing regexes at the head of the input (case-insensitive),
returning the input after the `>`. -/
def matchOpenTag (tag : Str) (s : Str) : Option Str :=
  match s with
  | [] => none
  | c :: rest =>
    if c = '<' then
      match dropPrefixCI tag rest with
      | some r => skipAttrs r
      | none => none
    else none

theorem matchOpenTag_length {tag s r : Str} (h : matchOpenTag tag s = some r) :
    r.length < s.length := by
  cases s with
  | nil => simp [matchOpenTag] at h
  | cons c cs =>
    simp only [matchOpenTag] at h
    split at h
    · rename_i hc
      rcases h1 : dropPrefixCI tag cs with _ | r1
      · rw [h1] at h; exact absurd h (by simp)
      · rw [h1] at h
        have l1 := dropPrefixCI_length h1
        have l2 := skipAttrs_length h
        simp only [List.length_cons]
        omega
    · exact absurd h (by simp)

theorem matchOpenTag_head {tag : Str} {c : Char} {cs : Str} (hc : c ≠ '<') :
    matchOpenTag tag (c :: cs) = none := by
  simp [matchOpenTag, hc]

/-- The closing-tag literal `</tag>`. -/
def closePat (tag : Str) : Str := '<' :: '/' :: (tag ++ ['>'])

/-- Lazy continuation `[\s\S]*?<\/tag>`: scan forward to the first
occurrence of the closing tag (case-insensitive) and return the input
after it; `none` when the closing tag never occurs. -/
def dropAfterClose (tag : Str) : Str → Option Str
  | [] => none
  | c :: cs =>
    match dropPrefixCI (closePat tag) (c :: cs) with
    | some r => some r
    | none => dropAfterClose tag cs

theorem dropAfterClose_length {tag s r : Str} (h : dropAfterClose tag s = some r) :
    r.length < s.length := by
  induction s with
  | nil => simp [dropAfterClose] at h
  | cons c cs ih =>
    simp only [dropAfterClose] at h
    rcases h1 : dropPrefixCI (closePat tag) (c :: cs) with _ | r1
    · rw [h1] at h
      exact Nat.lt_trans (ih h) (by simp)
    · rw [h1] at h
      cases h
      have := dropPrefixCI_length h1
      simp only [closePat, List.length_cons, List.length_append] at this
      simp only [List.length_cons]
      omega

/-- One whole-region match `<tag[^>]*>[\s\S]*?<\/tag>` at the head of
the input: the opening pattern followed by the lazy search for the
closing tag.  Returns the input after the region. -/
def tryRegion (tag : Str) (s : Str) : Option Str :=
  match matchOpenTag tag s with
  | some r => dropAfterClose tag r
  | none => none

theorem tryRegion_length {tag s r : Str} (h : tryRegion tag s = some r) :
    r.length < s.length := by
  simp only [tryRegion] at h
  rcases h1 : matchOpenTag tag s with _ | r1
  · rw [h1] at h; exact absurd h (by simp)
  · rw [h1] at h
    exact Nat.lt_trans (dropAfterClose_length h) (matchOpenTag_length h1)

theorem tryRegion_head {tag : Str} {c : Char} {cs : Str} (hc : c ≠ '<') :
    tryRegion tag (c :: cs) = none := by
  simp [tryRegion, matchOpenTag_head hc]

/-- Fueled global substitution `html.replace(/<tag[^>]*>[\s\S]*?<\/tag>/gi, '')`:
scan left to right; at a position where the whole region pattern
matches, drop the region and continue after it (the `g` flag continues
after the match, it does not rescan the built output); otherwise keep
the character.  Fuel bounds the recursion; `stripTag` supplies enough
fuel for the whole input. -/
def stripTagF (tag : Str) : Nat → Str → Str
  | _, [] => []
  | 0, s => s
  | n + 1, c :: cs =>
    match tryRegion tag (c :: cs) with
    | some rem => stripTagF tag n rem
    | none => c :: stripTagF tag n cs

/-- One global substitution pass removing `<tag[^>]*>[\s\S]*?<\/tag>`. -/
def stripTag (tag : Str) (s : Str) : Str := stripTagF tag s.length s

theorem stripTagF_congr (tag : Str) :
    ∀ (n m : Nat) (s : Str), s.length ≤ n → s.length ≤ m →
      stripTagF tag n s = stripTagF tag m s := by
  intro n
  induction n with
  | zero =>
    intro m s hn _
    have : s = [] := List.length_eq_zero.mp (Nat.le_zero.mp hn)
    subst this
    cases m <;> rfl
  | succ n ih =>
    intro m s hn hm
    cases s with
    | nil => cases m <;> rfl
    | cons c cs =>
      cases m with
      | zero => simp at hm
      | succ m =>
        simp only [stripTagF]
        rcases h1 : tryRegion tag (c :: cs) with _ | rem
        · simp only [List.length_cons] at hn hm
          exact congrArg (c :: ·) (ih m cs (by omega) (by omega))
        · have hl := tryRegion_length h1
          simp only [List.length_cons] at hn hm hl
          exact ih m rem (by omega) (by omega)

theorem stripTag_nil (tag : Str) : stripTag tag [] = [] := rfl

theorem stripTag_pos {tag : Str} {c : Char} {cs rem : Str}
    (h : tryRegion tag (c :: cs) = some rem) :
    stripTag tag (c :: cs) = stripTag tag rem := by
  have hl := tryRegion_length h
  simp only [List.length_cons] at hl
  simp only [stripTag, List.length_cons, stripTagF, h]
  exact stripTagF_congr tag cs.length rem.length rem (by omega) (by omega)

theorem stripTag_neg {tag : Str} {c : Char} {cs : Str}
    (h : tryRegion tag (c :: cs) = none) :
    stripTag tag (c :: cs) = c :: stripTag tag cs := by
  simp only [stripTag, List.length_cons, stripTagF, h]

/-! ## Generic scan-through machinery

A global-replace scanner walks the input one character at a time; to
show a block `x` passes through a pass unchanged we show no match can
start at any position inside `x` (with the rest `r` of the input
appended). -/

/-- No nonempty suffix of `x` (followed by the rest `r`) satisfies the
match predicate `P`. -/
def ScanSafe (P : Str → Prop) (x r : Str) : Prop :=
  ∀ u v, x = u ++ v → v ≠ [] → ¬ P (v ++ r)

theorem scanSafe_nil {P : Str → Prop} {r : Str} : ScanSafe P [] r := by
  intro u v h hv
  exact absurd (List.append_eq_nil.mp h.symm).2 hv

theorem scanSafe_cons {P : Str → Prop} {c : Char} {xs r : Str}
    (h1 : ¬ P (c :: (xs ++ r))) (h2 : ScanSafe P xs r) :
    ScanSafe P (c :: xs) r := by
  intro u v h hv
  cases u with
  | nil =>
    simp only [List.nil_append] at h
    subst h
    simpa using h1
  | cons d u' =>
    simp only [List.cons_append, List.cons.injEq] at h
    exact h2 u' v h.2 hv

theorem scanSafe_of_cons {P : Str → Prop} {c : Char} {xs r : Str}
    (h : ScanSafe P (c :: xs) r) : ScanSafe P xs r := by
  intro u v hx hv
  exact h (c :: u) v (by simp [hx]) hv

theorem scanSafe_append {P : Str → Prop} {x y r : Str}
    (hx : ScanSafe P x (y ++ r)) (hy : ScanSafe P y r) :
    ScanSafe P (x ++ y) r := by
  intro u v h hv
  rcases List.append_eq_append_iff.mp h.symm with ⟨w, hw1, hw2⟩ | ⟨w, hw1, hw2⟩
  · cases w with
    | nil =>
      simp only [List.append_nil] at hw1
      simp only [List.nil_append] at hw2
      subst hw2
      exact hy [] v (by simp) hv
    | cons d w' =>
      have := hx u (d :: w') hw1 (by simp)
      rw [hw2, List.append_assoc]
      exact this
  · exact hy w v hw2 hv

theorem scanSafe_heads {P : Str → Prop} {x r : Str}
    (h : ∀ c ∈ x, ∀ t, ¬ P (c :: t)) : ScanSafe P x r := by
  induction x with
  | nil => exact scanSafe_nil
  | cons c xs ih =>
    exact scanSafe_cons (h c (List.mem_cons_self _ _) _)
      (ih fun d hd => h d (List.mem_cons_of_mem _ hd))

/-- The match predicate of a `stripTag` pass: the opening tag pattern
matches at this position. -/
def OpenAt (tag : Str) (s : Str) : Prop := (matchOpenTag tag s).isSome

theorem tryRegion_of_no_open {tag s : Str} (h : ¬ OpenAt tag s) :
    tryRegion tag s = none := by
  simp only [OpenAt, Option.isSome_iff_exists, not_exists] at h
  rcases h1 : matchOpenTag tag s with _ | r
  · simp [tryRegion, h1]
  · exact absurd h1 (h r)

/-- A block no position of which opens a `tag` region passes through the
substitution unchanged. -/
theorem stripTag_through {tag x r : Str} (h : ScanSafe (OpenAt tag) x r) :
    stripTag tag (x ++ r) = x ++ stripTag tag r := by
  induction x with
  | nil => simp
  | cons c xs ih =>
    have hno : tryRegion tag (c :: (xs ++ r)) = none :=
      tryRegion_of_no_open (h [] (c :: xs) (by simp) (by simp))
    simp only [List.cons_append]
    rw [stripTag_neg hno, ih (scanSafe_of_cons h)]

/-! ## Character facts for case-insensitive matching -/

/-- Every character of the string is a lower-case ASCII letter. -/
def allLower (s : Str) : Prop := ∀ c ∈ s, isLowerAlpha c = true

instance (s : Str) : Decidable (allLower s) :=
  inferInstanceAs (Decidable (∀ c ∈ s, isLowerAlpha c = true))

theorem isLowerAlpha_bounds {c : Char} (h : isLowerAlpha c = true) :
    97 ≤ c.toNat ∧ c.toNat ≤ 122 := by
  simp only [isLowerAlpha] at h
  split at h
  · assumption
  · simp at h

theorem toNat_eq_of_eq {c d : Char} (h : c = d) : c.toNat = d.toNat := by
  rw [h]

theorem ciEq_lower_iff {p c : Char} (hp : isLowerAlpha p = true)
    (hc : isLowerAlpha c = true) : ciEq p c = true ↔ c = p := by
  have hb := isLowerAlpha_bounds hp
  have hb' := isLowerAlpha_bounds hc
  constructor
  · intro h
    simp only [ciEq] at h
    split at h
    · assumption
    · split at h
      · rename_i hx
        omega
      · simp at h
  · intro h
    simp [ciEq, h]

theorem ciEq_lower_small {p c : Char} (hp : isLowerAlpha p = true)
    (hc : c.toNat < 65) : ciEq p c = false := by
  have hb := isLowerAlpha_bounds hp
  have hne : c ≠ p := fun h => by have := toNat_eq_of_eq h; omega
  simp only [ciEq, if_neg hne]
  split
  · rename_i hx
    omega
  · rfl

theorem lower_ne_lt {c : Char} (h : isLowerAlpha c = true) : c ≠ '<' := by
  intro he
  subst he
  exact absurd h (by decide)

/-- Unfolding of the opening-tag matcher at an opening bracket. -/
theorem matchOpenTag_lt (tag rest : Str) :
    matchOpenTag tag ('<' :: rest) =
      (match dropPrefixCI tag rest with
       | some r => skipAttrs r
       | none => none) := by
  simp [matchOpenTag]

/-- Two distinct lower-case tags neither of which is a prefix of the
other never match case-insensitively, whatever follows. -/
theorem dropPrefixCI_none_pair {t t' : Str} (ht : allLower t) (ht' : allLower t')
    (h1 : ¬ t <+: t') (h2 : ¬ t' <+: t) (rest : Str) :
    dropPrefixCI t (t' ++ rest) = none := by
  induction t generalizing t' with
  | nil => exact absurd List.nil_prefix h1
  | cons a as ih =>
    cases t' with
    | nil => exact absurd List.nil_prefix h2
    | cons b bs =>
      have ha : isLowerAlpha a = true := ht a (List.mem_cons_self _ _)
      have hbl : isLowerAlpha b = true := ht' b (List.mem_cons_self _ _)
      simp only [List.cons_append, dropPrefixCI]
      by_cases hab : b = a
      · subst hab
        rw [if_pos ((ciEq_lower_iff ha hbl).mpr rfl)]
        exact ih (fun c hc => ht c (List.mem_cons_of_mem _ hc))
          (fun c hc => ht' c (List.mem_cons_of_mem _ hc))
          (fun hpre => h1 (List.cons_prefix_cons.mpr ⟨rfl, hpre⟩))
          (fun hpre => h2 (List.cons_prefix_cons.mpr ⟨rfl, hpre⟩))
      · rw [if_neg]
        intro hci
        exact hab ((ciEq_lower_iff ha hbl).mp hci)

/-! ## The segment model of an HTML document

For the positive (amended) sanitization statement we consider documents
that decompose into plain text segments and well-formed denylisted
regions.  `Seg.render` produces the concrete markup; all reasoning about
the cleanup chain happens against the rendered string. -/

/-- A document segment: plain text, or a whole tag region of the form
`<tag attrs>inner</tag>`. -/
inductive Seg
  | text (s : Str)
  | region (tag attrs inner : Str)

/-- Concrete markup of a segment. -/
def Seg.render : Seg → Str
  | .text s => s
  | .region t a i => '<' :: (t ++ a ++ '>' :: (i ++ closePat t))

/-- Concrete markup of a document. -/
def renderAll (segs : List Seg) : Str := (segs.map Seg.render).flatten

def Seg.isText : Seg → Bool
  | .text _ => true
  | .region _ _ _ => false

/-- Does this segment carry the given region tag? -/
def Seg.tagIs (t : Str) : Seg → Bool
  | .region t' _ _ => decide (t' = t)
  | .text _ => false

/-- Well-formedness of a segment with respect to a tag denylist: text
holds no markup brackets or quotes, a region's tag is denylisted, its
attributes stay inside the opening tag, and its inner content opens no
nested tag and holds no quotes. -/
def segOk (tags : List Str) : Seg → Prop
  | .text s => '<' ∉ s ∧ qc ∉ s
  | .region t a i => t ∈ tags ∧ '<' ∉ a ∧ '>' ∉ a ∧ qc ∉ a ∧ '<' ∉ i ∧ qc ∉ i

instance (tags : List Str) (g : Seg) : Decidable (segOk tags g) := by
  cases g with
  | text s => exact inferInstanceAs (Decidable ('<' ∉ s ∧ qc ∉ s))
  | region t a i =>
    exact inferInstanceAs
      (Decidable (t ∈ tags ∧ '<' ∉ a ∧ '>' ∉ a ∧ qc ∉ a ∧ '<' ∉ i ∧ qc ∉ i))

theorem scanSafe_no_lt {t x r : Str} (h : ∀ c ∈ x, c ≠ '<') :
    ScanSafe (OpenAt t) x r := by
  refine scanSafe_heads fun c hc tl => ?_
  simp [OpenAt, matchOpenTag_head (h c hc)]

/-- The closing-tag search runs through inner content that opens no
bracket, and then consumes the closing tag itself. -/
theorem dropAfterClose_self {t i r : Str} (hi : '<' ∉ i) :
    dropAfterClose t (i ++ (closePat t ++ r)) = some r := by
  induction i with
  | nil =>
    have e : closePat t ++ r = '<' :: (('/' :: (t ++ ['>'])) ++ r) := by
      simp [closePat]
    simp only [List.nil_append]
    rw [e]
    simp only [dropAfterClose]
    rw [← e, dropPrefixCI_self]
  | cons c cs ih =>
    have hc : c ≠ '<' := fun h => hi (h ▸ List.mem_cons_self _ _)
    have step : ∀ l : Str, dropPrefixCI (closePat t) (c :: l) = none := by
      intro l
      simp only [closePat, dropPrefixCI]
      rw [if_neg]
      intro hci
      simp only [ciEq] at hci
      rw [if_neg hc] at hci
      split at hci
      · rename_i hx
        exact absurd hx.1 (by decide)
      · simp at hci
    have e : dropAfterClose t (c :: (cs ++ (closePat t ++ r))) =
        dropAfterClose t (cs ++ (closePat t ++ r)) := by
      generalize cs ++ (closePat t ++ r) = l
      simp only [dropAfterClose, step l]
    rw [List.cons_append, e]
    exact ih (fun h => hi (List.mem_cons_of_mem _ h))

/-- A whole well-formed region of the scanned tag matches the region
pattern exactly, leaving the rest of the input. -/
theorem tryRegion_self {t a i : Str} (ha : '>' ∉ a) (hi : '<' ∉ i) (r : Str) :
    tryRegion t (Seg.render (.region t a i) ++ r) = some r := by
  have e1 : Seg.render (.region t a i) ++ r =
      '<' :: (t ++ (a ++ '>' :: (i ++ (closePat t ++ r)))) := by
    simp [Seg.render, List.append_assoc]
  rw [e1]
  have hopen : matchOpenTag t ('<' :: (t ++ (a ++ '>' :: (i ++ (closePat t ++ r))))) =
      some (i ++ (closePat t ++ r)) := by
    rw [matchOpenTag_lt, dropPrefixCI_self]
    exact skipAttrs_self ha _
  simp only [tryRegion]
  rw [hopen]
  exact dropAfterClose_self hi

/-- No position inside a well-formed region of a different,
prefix-incomparable tag opens a region of the scanned tag. -/
theorem scanSafe_region {t t' a i : Str} (htne : t ≠ []) (hlt : allLower t)
    (hl' : allLower t') (hc1 : ¬ t <+: t') (hc2 : ¬ t' <+: t)
    (ha1 : '<' ∉ a) (hi : '<' ∉ i) (r : Str) :
    ScanSafe (OpenAt t) (Seg.render (.region t' a i)) r := by
  have hslash : ∀ tl : Str, ¬ OpenAt t ('<' :: '/' :: tl) := by
    intro tl h
    cases t with
    | nil => exact htne rfl
    | cons th tt =>
      have hth : isLowerAlpha th = true := hlt th (List.mem_cons_self _ _)
      simp only [OpenAt] at h
      rw [matchOpenTag_lt] at h
      have hpre : dropPrefixCI (th :: tt) ('/' :: tl) = none := by
        simp only [dropPrefixCI]
        rw [ciEq_lower_small hth (by decide : ('/' : Char).toNat < 65)]
        simp
      rw [hpre] at h
      simp at h
  have closeSafe : ScanSafe (OpenAt t) (['<', '/'] ++ (t' ++ ['>'])) r := by
    refine scanSafe_append ?_ ?_
    · refine scanSafe_cons ?_ (scanSafe_cons ?_ scanSafe_nil)
      · simpa using hslash _
      · intro h
        simp [OpenAt, matchOpenTag_head (by decide : ('/' : Char) ≠ '<')] at h
    · refine scanSafe_no_lt fun c hc => ?_
      rcases List.mem_append.mp hc with h | h
      · exact lower_ne_lt (hl' c h)
      · simp only [List.mem_singleton] at h
        subst h
        decide
  have innerSafe : ScanSafe (OpenAt t) (i ++ (['<', '/'] ++ (t' ++ ['>']))) r :=
    scanSafe_append
      (scanSafe_no_lt fun c hc he => hi (he ▸ hc)) closeSafe
  have gtSafe : ScanSafe (OpenAt t)
      (['>'] ++ (i ++ (['<', '/'] ++ (t' ++ ['>'])))) r := by
    refine scanSafe_append ?_ innerSafe
    refine scanSafe_no_lt fun c hc => ?_
    simp only [List.mem_singleton] at hc
    subst hc
    decide
  have bodySafe : ScanSafe (OpenAt t)
      ((t' ++ a) ++ (['>'] ++ (i ++ (['<', '/'] ++ (t' ++ ['>']))))) r := by
    refine scanSafe_append ?_ gtSafe
    refine scanSafe_no_lt fun c hc => ?_
    rcases List.mem_append.mp hc with h | h
    · exact lower_ne_lt (hl' c h)
    · exact fun he => ha1 (he ▸ h)
  have headSafe : ScanSafe (OpenAt t)
      (['<'] ++ ((t' ++ a) ++ (['>'] ++ (i ++ (['<', '/'] ++ (t' ++ ['>'])))))) r := by
    refine scanSafe_append ?_ bodySafe
    refine scanSafe_cons ?_ scanSafe_nil
    intro h
    simp only [List.nil_append, OpenAt] at h
    rw [matchOpenTag_lt] at h
    have e : ((t' ++ a) ++ (['>'] ++ (i ++ (['<', '/'] ++ (t' ++ ['>']))))) ++ r =
        t' ++ ((a ++ (['>'] ++ (i ++ (['<', '/'] ++ (t' ++ ['>']))))) ++ r) := by
      simp [List.append_assoc]
    rw [e, dropPrefixCI_none_pair hlt hl' hc1 hc2] at h
    simp at h
  have e : Seg.render (.region t' a i) =
      ['<'] ++ ((t' ++ a) ++ (['>'] ++ (i ++ (['<', '/'] ++ (t' ++ ['>']))))) := by
    simp [Seg.render, closePat, List.append_assoc]
  rw [e]
  exact headSafe

theorem renderAll_cons (g : Seg) (l : List Seg) :
    renderAll (g :: l) = g.render ++ renderAll l := by
  simp [renderAll]

/-- One substitution pass on a well-formed document removes exactly the
regions of the scanned tag and keeps everything else verbatim. -/
theorem stripTag_renderAll {t : Str} {tags : List Str} {segs : List Seg}
    (ht1 : t ≠ []) (ht2 : allLower t)
    (htags : ∀ u ∈ tags, allLower u ∧ (u = t ∨ (¬ t <+: u ∧ ¬ u <+: t)))
    (hsegs : ∀ g ∈ segs, segOk tags g) :
    stripTag t (renderAll segs) =
      renderAll (segs.filter (fun g => ! Seg.tagIs t g)) := by
  induction segs with
  | nil => simp [renderAll, stripTag_nil]
  | cons g rest ih =>
    have hg := hsegs g (List.mem_cons_self _ _)
    have hrest : ∀ g' ∈ rest, segOk tags g' :=
      fun g' hg' => hsegs g' (List.mem_cons_of_mem _ hg')
    cases g with
    | text s =>
      obtain ⟨hs1, _⟩ := hg
      rw [renderAll_cons]
      show stripTag t (s ++ renderAll rest) = _
      rw [stripTag_through (scanSafe_no_lt fun c hc he => hs1 (he ▸ hc)), ih hrest]
      simp [List.filter_cons, Seg.tagIs, renderAll_cons, Seg.render]
    | region t' a i =>
      obtain ⟨hmem, ha1, ha2, _, hi1, _⟩ := hg
      obtain ⟨hl', hd⟩ := htags t' hmem
      by_cases het : t' = t
      · subst het
        have hpos := @tryRegion_self t' a i ha2 hi1 (renderAll rest)
        have e2 : Seg.render (.region t' a i) ++ renderAll rest =
            '<' :: ((t' ++ a ++ '>' :: (i ++ closePat t')) ++ renderAll rest) := by
          simp [Seg.render]
        rw [e2] at hpos
        rw [renderAll_cons, e2, stripTag_pos hpos, ih hrest]
        simp [List.filter_cons, Seg.tagIs]
      · have hcompat := hd.resolve_left het
        rw [renderAll_cons,
          stripTag_through
            (scanSafe_region ht1 ht2 hl' hcompat.1 hcompat.2 ha1 hi1 _),
          ih hrest]
        simp [List.filter_cons, Seg.tagIs, het, renderAll_cons]

/-- The source's chained cleanup `content.replace(...).replace(...)`:
one global region-removing substitution per denylisted tag, applied in
order. -/
def stripTags (tags : List Str) (s : Str) : Str :=
  tags.foldl (fun acc u => stripTag u acc) s

/-- The whole cleanup chain on a well-formed document whose region tags
all belong to the chain's denylist leaves exactly the text segments. -/
theorem stripTags_renderAll {tags : List Str} {segs : List Seg}
    (h1 : ∀ u ∈ tags, u ≠ [] ∧ allLower u)
    (h2 : tags.Pairwise (fun a b => ¬ a <+: b ∧ ¬ b <+: a))
    (hsegs : ∀ g ∈ segs, segOk tags g) :
    stripTags tags (renderAll segs) = renderAll (segs.filter Seg.isText) := by
  induction tags generalizing segs with
  | nil =>
    have e : segs.filter Seg.isText = segs := by
      refine List.filter_eq_self.mpr fun g hg => ?_
      cases g with
      | text s => rfl
      | region t a i => exact absurd (hsegs _ hg).1 (List.not_mem_nil _)
    rw [e]
    rfl
  | cons u us ih =>
    have hu := h1 u (List.mem_cons_self _ _)
    have step : stripTags (u :: us) (renderAll segs) =
        stripTags us (stripTag u (renderAll segs)) := rfl
    rw [step, stripTag_renderAll hu.1 hu.2 ?htags hsegs]
    case htags =>
      intro v hv
      rcases List.mem_cons.mp hv with hv1 | hv2
      · exact ⟨(h1 v hv).2, Or.inl hv1⟩
      · have hrel := (List.pairwise_cons.mp h2).1 v hv2
        exact ⟨(h1 v hv).2, Or.inr ⟨hrel.1, hrel.2⟩⟩
    rw [ih (fun v hv => h1 v (List.mem_cons_of_mem _ hv))
        (List.pairwise_cons.mp h2).2 ?hsegs1]
    case hsegs1 =>
      intro g hg
      have hmem := List.mem_filter.mp hg
      have hok := hsegs g hmem.1
      cases g with
      | text s => exact hok
      | region t' a i =>
        refine ⟨?_, hok.2.1, hok.2.2.1, hok.2.2.2.1, hok.2.2.2.2.1, hok.2.2.2.2.2⟩
        have hne : t' ≠ u := by
          have := hmem.2
          simp [Seg.tagIs] at this
          exact this
        rcases List.mem_cons.mp hok.1 with he | hm
        · exact absurd he hne
        · exact hm
    rw [List.filter_filter]
    refine congrArg renderAll (List.filter_congr fun g hg => ?_)
    cases g with
    | text s => simp [Seg.isText, Seg.tagIs]
    | region t' a i => simp [Seg.isText, Seg.tagIs]

/-- Characters of the cleaned-up output all come from text segments. -/
theorem mem_renderAll_filter {segs : List Seg} {tags : List Str} {c : Char}
    (hsegs : ∀ g ∈ segs, segOk tags g)
    (hc : c ∈ renderAll (segs.filter Seg.isText)) :
    c ≠ '<' ∧ c ≠ qc := by
  induction segs with
  | nil => simp [renderAll] at hc
  | cons g rest ih =>
    have hrest : ∀ g' ∈ rest, segOk tags g' :=
      fun g' hg' => hsegs g' (List.mem_cons_of_mem _ hg')
    cases g with
    | text s =>
      rw [List.filter_cons_of_pos (by simp [Seg.isText]), renderAll_cons] at hc
      rcases List.mem_append.mp hc with h | h
      · have hok := hsegs _ (List.mem_cons_self _ _)
        exact ⟨fun he => hok.1 (he ▸ h), fun he => hok.2 (he ▸ h)⟩
      · exact ih hrest h
    | region t' a i =>
      rw [List.filter_cons_of_neg (by simp [Seg.isText])] at hc
      exact ih hrest hc

/-! ## Attribute-noise substitutions of compile-epub.js

`content.replace(/class="[^"]*"/gi, '')`, the same for `style=`, and
`content.replace(/data-[a-z-]+="[^"]*"/gi, '')`. -/

/-- Consume `[^"]*"`: skip to the next double quote and consume it. -/
def dropToQuote : Str → Option Str
  | [] => none
  | c :: cs => if c = qc then some cs else dropToQuote cs

theorem dropToQuote_length {s r : Str} (h : dropToQuote s = some r) :
    r.length < s.length := by
  induction s with
  | nil => simp [dropToQuote] at h
  | cons c cs ih =>
    simp only [dropToQuote] at h
    split at h
    · cases h; simp
    · exact Nat.lt_trans (ih h) (by simp)

theorem dropToQuote_quote {s r : Str} (h : dropToQuote s = some r) : qc ∈ s := by
  induction s with
  | nil => simp [dropToQuote] at h
  | cons c cs ih =>
    simp only [dropToQuote] at h
    split at h
    · rename_i he
      exact he ▸ List.mem_cons_self _ _
    · exact List.mem_cons_of_mem _ (ih h)

/-- Match `pre[^"]*"` at the head of the input (`pre` is the literal
part `class="` or `style="`, matched case-insensitively). -/
def matchAttr (pre : Str) (s : Str) : Option Str :=
  match dropPrefixCI pre s with
  | some r => dropToQuote r
  | none => none

theorem matchAttr_length {pre s r : Str} (h : matchAttr pre s = some r) :
    r.length < s.length := by
  simp only [matchAttr] at h
  rcases h1 : dropPrefixCI pre s with _ | r1
  · rw [h1] at h; exact absurd h (by simp)
  · rw [h1] at h
    have := dropPrefixCI_length h1
    have := dropToQuote_length h
    omega

theorem matchAttr_quote {pre s r : Str} (h : matchAttr pre s = some r) : qc ∈ s := by
  simp only [matchAttr] at h
  rcases h1 : dropPrefixCI pre s with _ | r1
  · rw [h1] at h; exact absurd h (by simp)
  · rw [h1] at h
    have hq : qc ∈ r1 := dropToQuote_quote h
    clear h
    induction pre generalizing s with
    | nil => cases h1; exact hq
    | cons p ps ih =>
      cases s with
      | nil => simp [dropPrefixCI] at h1
      | cons c cs =>
        simp only [dropPrefixCI] at h1
        split at h1
        · exact List.mem_cons_of_mem _ (ih h1)
        · exact absurd h1 (by simp)

/-- Lower-case letter or hyphen: the `[a-z-]` class. -/
def dashLower (c : Char) : Bool := isLowerAlpha c || decide (c = '-')

/-- Greedy run of `[a-z-]` characters. -/
def spanDash : Str → (Str × Str)
  | [] => ([], [])
  | c :: cs =>
    if dashLower c then
      let p := spanDash cs
      (c :: p.1, p.2)
    else ([], c :: cs)

theorem spanDash_decomp (s : Str) : s = (spanDash s).1 ++ (spanDash s).2 := by
  induction s with
  | nil => rfl
  | cons c cs ih =>
    simp only [spanDash]
    split
    · simpa using ih
    · simp

/-- The literal `data-`. -/
def dataLit : Str := "data-".toList

/-- The continuation `="[^"]*"` after the attribute-name run. -/
def eqQuoteSeq : Str → Option Str
  | c1 :: c2 :: rest3 => if c1 = '=' ∧ c2 = qc then dropToQuote rest3 else none
  | _ => none

theorem eqQuoteSeq_length {s r : Str} (h : eqQuoteSeq s = some r) :
    r.length + 2 ≤ s.length := by
  match s with
  | [] => simp [eqQuoteSeq] at h
  | [c1] => simp [eqQuoteSeq] at h
  | c1 :: c2 :: rest3 =>
    simp only [eqQuoteSeq] at h
    split at h
    · have := dropToQuote_length h
      simp only [List.length_cons]
      omega
    · exact absurd h (by simp)

theorem eqQuoteSeq_quote {s r : Str} (h : eqQuoteSeq s = some r) : qc ∈ s := by
  match s with
  | [] => simp [eqQuoteSeq] at h
  | [c1] => simp [eqQuoteSeq] at h
  | c1 :: c2 :: rest3 =>
    simp only [eqQuoteSeq] at h
    split at h
    · rename_i hcc
      simp [hcc.2]
    · exact absurd h (by simp)

/-- Match `data-[a-z-]+="[^"]*"` at the head of the input: the literal
`data-`, a nonempty greedy `[a-z-]` run, then `="`, then skip to the
closing quote. -/
def matchDataAttr (s : Str) : Option Str :=
  (dropPrefixCI dataLit s).bind fun r =>
    if (spanDash r).1 = [] then none else eqQuoteSeq (spanDash r).2

theorem matchDataAttr_length {s r : Str} (h : matchDataAttr s = some r) :
    r.length < s.length := by
  simp only [matchDataAttr] at h
  rcases h1 : dropPrefixCI dataLit s with _ | r1
  · rw [h1] at h; exact absurd h (by simp)
  · rw [h1, Option.some_bind] at h
    have hl1 := dropPrefixCI_length h1
    have hdec := spanDash_decomp r1
    split at h
    · exact absurd h (by simp)
    · have hlen := eqQuoteSeq_length h
      have : (spanDash r1).2.length ≤ r1.length := by
        conv_rhs => rw [hdec]
        simp [List.length_append]
      omega

theorem matchDataAttr_quote {s r : Str} (h : matchDataAttr s = some r) : qc ∈ s := by
  simp only [matchDataAttr] at h
  rcases h1 : dropPrefixCI dataLit s with _ | r1
  · rw [h1] at h; exact absurd h (by simp)
  · rw [h1, Option.some_bind] at h
    have hq : qc ∈ r1 := by
      split at h
      · exact absurd h (by simp)
      · have := eqQuoteSeq_quote h
        rw [spanDash_decomp r1]
        exact List.mem_append.mpr (Or.inr this)
    clear h
    generalize hd : dataLit = d at h1
    clear hd
    induction d generalizing s with
    | nil => cases h1; exact hq
    | cons p ps ih =>
      cases s with
      | nil => simp [dropPrefixCI] at h1
      | cons c cs =>
        simp only [dropPrefixCI] at h1
        split at h1
        · exact List.mem_cons_of_mem _ (ih h1)
        · exact absurd h1 (by simp)

/-- Fueled global replace-with-empty for an arbitrary head matcher
(used for the attribute-noise substitutions). -/
def replGlobalF (m : Str → Option Str) : Nat → Str → Str
  | _, [] => []
  | 0, s => s
  | n + 1, c :: cs =>
    match m (c :: cs) with
    | some rem => replGlobalF m n rem
    | none => c :: replGlobalF m n cs

/-- Global replace-with-empty, fuel instantiated with the input length. -/
def replGlobal (m : Str → Option Str) (s : Str) : Str := replGlobalF m s.length s

theorem replGlobalF_congr {m : Str → Option Str}
    (hm : ∀ s r, m s = some r → r.length < s.length) :
    ∀ (n k : Nat) (s : Str), s.length ≤ n → s.length ≤ k →
      replGlobalF m n s = replGlobalF m k s := by
  intro n
  induction n with
  | zero =>
    intro k s hn _
    have : s = [] := List.length_eq_zero.mp (Nat.le_zero.mp hn)
    subst this
    cases k <;> rfl
  | succ n ih =>
    intro k s hn hk
    cases s with
    | nil => cases k <;> rfl
    | cons c cs =>
      cases k with
      | zero => simp at hk
      | succ k =>
        simp only [replGlobalF]
        rcases h1 : m (c :: cs) with _ | rem
        · simp only [List.length_cons] at hn hk
          exact congrArg (c :: ·) (ih k cs (by omega) (by omega))
        · have hl := hm _ _ h1
          simp only [List.length_cons] at hn hk hl
          exact ih k rem (by omega) (by omega)

theorem replGlobal_pos {m : Str → Option Str}
    (hm : ∀ s r, m s = some r → r.length < s.length)
    {c : Char} {cs rem : Str} (h : m (c :: cs) = some rem) :
    replGlobal m (c :: cs) = replGlobal m rem := by
  have hl := hm _ _ h
  simp only [List.length_cons] at hl
  simp only [replGlobal, List.length_cons, replGlobalF, h]
  exact replGlobalF_congr hm cs.length rem.length rem (by omega) (by omega)

theorem replGlobal_neg {m : Str → Option Str} {c : Char} {cs : Str}
    (h : m (c :: cs) = none) :
    replGlobal m (c :: cs) = c :: replGlobal m cs := by
  simp only [replGlobal, List.length_cons, replGlobalF, h]

/-- A matcher that only fires on inputs containing a double quote is
inert on quote-free input. -/
theorem replGlobal_id {m : Str → Option Str}
    (hq : ∀ s r, m s = some r → qc ∈ s)
    {s : Str} (hs : qc ∉ s) : replGlobal m s = s := by
  induction s with
  | nil => rfl
  | cons c cs ih =>
    have h1 : m (c :: cs) = none := by
      rcases h2 : m (c :: cs) with _ | r
      · rfl
      · exact absurd (hq _ _ h2) hs
    rw [replGlobal_neg h1, ih (fun h => hs (List.mem_cons_of_mem _ h))]

/-! ## The two cleanup chains of the source -/

def scriptTag : Str := "script".toList
def styleTag : Str := "style".toList
def navTag : Str := "nav".toList
def headerTag : Str := "header".toList
def footerTag : Str := "footer".toList
def asideTag : Str := "aside".toList
def iframeTag : Str := "iframe".toList
def formTag : Str := "form".toList
def svgTag : Str := "svg".toList
def buttonTag : Str := "button".toList

/-- Denylist of `downloadArticle` in index.js (lines 241-249):
script, style, nav, header, footer, aside, iframe, form — no svg. -/
def indexCleanupTags : List Str :=
  [scriptTag, styleTag, navTag, headerTag, footerTag, asideTag, iframeTag, formTag]

/-- The cleanup chain of `downloadArticle` in index.js. -/
def cleanupDownloadArticle (s : Str) : Str := stripTags indexCleanupTags s

/-- Denylist of `extractArticle` in compile-epub.js (lines 104-115):
script, style, nav, header, footer, aside, svg, button — no form, no
iframe. -/
def epubCleanupTags : List Str :=
  [scriptTag, styleTag, navTag, headerTag, footerTag, asideTag, svgTag, buttonTag]

def classAttrPre : Str := "class=".toList ++ [qc]
def styleAttrPre : Str := "style=".toList ++ [qc]

/-- One `class="[^"]*"` removing pass. -/
def stripAttr (pre : Str) (s : Str) : Str := replGlobal (matchAttr pre) s

/-- The `data-[a-z-]+="[^"]*"` removing pass. -/
def stripDataAttr (s : Str) : Str := replGlobal matchDataAttr s

/-- The cleanup chain of `extractArticle` in compile-epub.js: the eight
tag-region substitutions, then the class, style and data attribute
substitutions. -/
def cleanupExtractArticle (s : Str) : Str :=
  stripDataAttr (stripAttr styleAttrPre (stripAttr classAttrPre
    (stripTags epubCleanupTags s)))

/-! ## Claim C1: sanitization -/

/-- C1 counterexample: the claim says that after the cleanup
substitutions of `downloadArticle` (index.js) and `extractArticle`
(compile-epub.js) none of the five tags script, style, nav, form, svg
occurs in the returned content.  But the index.js chain never removes
`<svg>` regions and the compile-epub.js chain never removes `<form>`
regions: on the concrete inputs below the tags survive verbatim. -/
theorem c1_sanitization_counterexample :
    "<svg>".toList <:+: cleanupDownloadArticle "<p><svg>x</svg></p>".toList ∧
    "<form>".toList <:+: cleanupExtractArticle "<p><form>x</form></p>".toList := by
  decide

/-- C1 (amended): each variant's cleanup chain removes exactly the
well-formed regions of its own denylist — index.js `downloadArticle`
removes script/style/nav/header/footer/aside/iframe/form (not svg),
compile-epub.js `extractArticle` removes
script/style/nav/header/footer/aside/svg/button (not form).  On a
document decomposing into quote-free plain text and well-formed
denylisted regions, the output is exactly the text segments, so no
markup at all — in particular none of the removed tags — remains. -/
theorem c1_sanitization_amended (segsI segsE : List Seg)
    (hI : ∀ g ∈ segsI, segOk indexCleanupTags g)
    (hE : ∀ g ∈ segsE, segOk epubCleanupTags g) :
    cleanupDownloadArticle (renderAll segsI) =
        renderAll (segsI.filter Seg.isText) ∧
    cleanupExtractArticle (renderAll segsE) =
        renderAll (segsE.filter Seg.isText) ∧
    (∀ p : Str, '<' ∈ p →
      ¬ p <:+: cleanupDownloadArticle (renderAll segsI)) ∧
    (∀ p : Str, '<' ∈ p →
      ¬ p <:+: cleanupExtractArticle (renderAll segsE)) := by
  have hA : cleanupDownloadArticle (renderAll segsI) =
      renderAll (segsI.filter Seg.isText) :=
    stripTags_renderAll (by decide) (by decide) hI
  have hB : stripTags epubCleanupTags (renderAll segsE) =
      renderAll (segsE.filter Seg.isText) :=
    stripTags_renderAll (by decide) (by decide) hE
  have hqcE : qc ∉ renderAll (segsE.filter Seg.isText) :=
    fun h => (mem_renderAll_filter hE h).2 rfl
  have hC : cleanupExtractArticle (renderAll segsE) =
      renderAll (segsE.filter Seg.isText) := by
    unfold cleanupExtractArticle stripAttr stripDataAttr
    rw [hB]
    rw [replGlobal_id (fun s r h => matchAttr_quote h) hqcE]
    rw [replGlobal_id (fun s r h => matchAttr_quote h) hqcE]
    rw [replGlobal_id (fun s r h => matchDataAttr_quote h) hqcE]
  refine ⟨hA, hC, ?_, ?_⟩
  · intro p hp hinf
    rw [hA] at hinf
    exact (mem_renderAll_filter hI (hinf.subset hp)).1 rfl
  · intro p hp hinf
    rw [hC] at hinf
    exact (mem_renderAll_filter hE (hinf.subset hp)).1 rfl

/-- Example well-formed document for the index.js cleanup. -/
def segsIndexEx : List Seg :=
  [Seg.text "Hello ".toList,
   Seg.region scriptTag " async".toList "var x = 1;".toList,
   Seg.text " world".toList]

/-- Example well-formed document for the compile-epub.js cleanup. -/
def segsEpubEx : List Seg :=
  [Seg.text "Intro ".toList,
   Seg.region svgTag " width=3".toList " path data ".toList,
   Seg.text " outro".toList]

/-- C1 witness: the amended theorem applied at concrete documents. -/
theorem c1_sanitization_witness :
    ¬ ("<script".toList <:+:
        cleanupDownloadArticle (renderAll segsIndexEx)) ∧
    ¬ ("<svg".toList <:+:
        cleanupExtractArticle (renderAll segsEpubEx)) :=
  ⟨(c1_sanitization_amended segsIndexEx segsEpubEx (by decide) (by decide)).2.2.1
      _ (by decide),
   (c1_sanitization_amended segsIndexEx segsEpubEx (by decide) (by decide)).2.2.2
      _ (by decide)⟩

/-! ## Claim C7 machinery: the article discoverer of index.js

`extractArticles` (index.js lines 146-159) scans the listing page with
`/href="(https:\/\/www\.anthropic\.com\/[^"]+)"/g` (case-sensitive),
keeps the captures whose URL contains `/news/`, `/engineering/` or
`/research/` in an insertion-ordered set, and returns the first three. -/

/-- Case-sensitive literal prefix drop. -/
def dropPrefixExact : Str → Str → Option Str
  | [], s => some s
  | _ :: _, [] => none
  | p :: ps, c :: cs => if c = p then dropPrefixExact ps cs else none

theorem dropPrefixExact_eq {p s r : Str} (h : dropPrefixExact p s = some r) :
    s = p ++ r := by
  induction p generalizing s with
  | nil => cases s <;> simp_all [dropPrefixExact]
  | cons q ps ih =>
    cases s with
    | nil => simp [dropPrefixExact] at h
    | cons c cs =>
      simp only [dropPrefixExact] at h
      split at h
      · rename_i hc
        subst hc
        simpa using ih h
      · exact absurd h (by simp)

theorem dropPrefixExact_self (p r : Str) : dropPrefixExact p (p ++ r) = some r := by
  induction p with
  | nil => rfl
  | cons q ps ih => simp [dropPrefixExact, ih]

theorem dropPrefixExact_of_not_prefix {p s : Str} (h : ¬ p <+: s) :
    dropPrefixExact p s = none := by
  rcases h1 : dropPrefixExact p s with _ | r
  · rfl
  · exact absurd ⟨r, (dropPrefixExact_eq h1).symm⟩ h

/-- Greedy run of non-quote characters `[^"]*` and the rest. -/
def spanNoQuote : Str → (Str × Str)
  | [] => ([], [])
  | c :: cs =>
    if c = qc then ([], c :: cs)
    else
      let p := spanNoQuote cs
      (c :: p.1, p.2)

theorem spanNoQuote_decomp (s : Str) : s = (spanNoQuote s).1 ++ (spanNoQuote s).2 := by
  induction s with
  | nil => rfl
  | cons c cs ih =>
    simp only [spanNoQuote]
    split
    · simp
    · simpa using ih

theorem spanNoQuote_append {t r : Str} (ht : qc ∉ t) :
    spanNoQuote (t ++ (qc :: r)) = (t, qc :: r) := by
  induction t with
  | nil => simp [spanNoQuote]
  | cons c cs ih =>
    have hc : c ≠ qc := fun h => ht (h ▸ List.mem_cons_self _ _)
    simp only [List.cons_append, spanNoQuote, if_neg hc, List.append_eq,
      ih (fun h => ht (List.mem_cons_of_mem _ h))]

/-- The literal `href="`. -/
def hrefLit : Str := "href=".toList ++ [qc]

/-- The literal site origin `https://www.anthropic.com/`. -/
def domainLit : Str := "https://www.anthropic.com/".toList

/-- The closing quote after the captured `[^"]+` run. -/
def quoteClose (url : Str) : Str → Option (Str × Str)
  | q :: rest => if q = qc then some (url, rest) else none
  | [] => none

theorem quoteClose_some {url s u rest : Str} (h : quoteClose url s = some (u, rest)) :
    u = url ∧ s = qc :: rest := by
  match s with
  | [] => simp [quoteClose] at h
  | q :: r2 =>
    simp only [quoteClose] at h
    split at h
    · rename_i hq
      cases h
      exact ⟨rfl, by rw [hq]⟩
    · exact absurd h (by simp)

/-- One match of `href="(https:\/\/www\.anthropic\.com\/[^"]+)"` at the
head of the input: the two literals, a nonempty non-quote run, the
closing quote.  Returns the captured URL and the rest after the match. -/
def matchHref (s : Str) : Option (Str × Str) :=
  (dropPrefixExact hrefLit s).bind fun r1 =>
    (dropPrefixExact domainLit r1).bind fun r2 =>
      if (spanNoQuote r2).1 = [] then none
      else quoteClose (domainLit ++ (spanNoQuote r2).1) (spanNoQuote r2).2

theorem matchHref_length {s : Str} {u rest : Str}
    (h : matchHref s = some (u, rest)) : rest.length < s.length := by
  simp only [matchHref] at h
  rcases h1 : dropPrefixExact hrefLit s with _ | r1
  · rw [h1] at h; exact absurd h (by simp)
  · rw [h1, Option.some_bind] at h
    rcases h2 : dropPrefixExact domainLit r1 with _ | r2
    · rw [h2] at h; exact absurd h (by simp)
    · rw [h2, Option.some_bind] at h
      split at h
      · exact absurd h (by simp)
      · have hq := quoteClose_some h
        have e1 := dropPrefixExact_eq h1
        have e2 := dropPrefixExact_eq h2
        have e3 := spanNoQuote_decomp r2
        rw [hq.2] at e3
        have l3 : r2.length = (spanNoQuote r2).1.length + (1 + rest.length) := by
          conv_lhs => rw [e3]
          simp [List.length_append]
          omega
        have l2 : r1.length = domainLit.length + r2.length := by
          rw [e2]; simp
        have l1 : s.length = hrefLit.length + r1.length := by
          rw [e1]; simp
        have hh : 0 < hrefLit.length := by decide
        omega

theorem matchHref_start {s : Str} {u rest : Str}
    (h : matchHref s = some (u, rest)) : (hrefLit ++ domainLit) <+: s := by
  simp only [matchHref] at h
  rcases h1 : dropPrefixExact hrefLit s with _ | r1
  · rw [h1] at h; exact absurd h (by simp)
  · rw [h1, Option.some_bind] at h
    rcases h2 : dropPrefixExact domainLit r1 with _ | r2
    · rw [h2] at h; exact absurd h (by simp)
    · rw [h2, Option.some_bind] at h
      refine ⟨r2, ?_⟩
      rw [dropPrefixExact_eq h1, dropPrefixExact_eq h2, List.append_assoc]

/-- Full self-match on a well-formed link rendering. -/
theorem matchHref_self {t r : Str} (htne : t ≠ []) (ht : qc ∉ t) :
    matchHref ((hrefLit ++ (domainLit ++ t) ++ [qc]) ++ r) =
      some (domainLit ++ t, r) := by
  have e1 : (hrefLit ++ (domainLit ++ t) ++ [qc]) ++ r =
      hrefLit ++ (domainLit ++ (t ++ (qc :: r))) := by
    simp [List.append_assoc]
  rw [e1]
  simp only [matchHref, dropPrefixExact_self, Option.some_bind]
  rw [spanNoQuote_append ht]
  simp [htne, quoteClose]

/-- Fueled global scan of the listing page: collect every match of the
article-link regex, continuing after each match. -/
def scanHrefsF : Nat → Str → List Str
  | _, [] => []
  | 0, _ => []
  | n + 1, c :: cs =>
    match matchHref (c :: cs) with
    | some (url, rest) => url :: scanHrefsF n rest
    | none => scanHrefsF n cs

/-- All captures of the article-link regex, in document order. -/
def scanHrefs (s : Str) : List Str := scanHrefsF s.length s

theorem scanHrefsF_congr :
    ∀ (n k : Nat) (s : Str), s.length ≤ n → s.length ≤ k →
      scanHrefsF n s = scanHrefsF k s := by
  intro n
  induction n with
  | zero =>
    intro k s hn _
    have : s = [] := List.length_eq_zero.mp (Nat.le_zero.mp hn)
    subst this
    cases k <;> rfl
  | succ n ih =>
    intro k s hn hk
    cases s with
    | nil => cases k <;> rfl
    | cons c cs =>
      cases k with
      | zero => simp at hk
      | succ k =>
        simp only [scanHrefsF]
        rcases h1 : matchHref (c :: cs) with _ | ⟨url, rest⟩
        · simp only [List.length_cons] at hn hk
          exact ih k cs (by omega) (by omega)
        · have hl := matchHref_length h1
          simp only [List.length_cons] at hn hk hl
          exact congrArg (url :: ·) (ih k rest (by omega) (by omega))

theorem scanHrefs_pos {c : Char} {cs url rest : Str}
    (h : matchHref (c :: cs) = some (url, rest)) :
    scanHrefs (c :: cs) = url :: scanHrefs rest := by
  have hl := matchHref_length h
  simp only [List.length_cons] at hl
  simp only [scanHrefs, List.length_cons, scanHrefsF, h]
  exact congrArg (url :: ·)
    (scanHrefsF_congr cs.length rest.length rest (by omega) (by omega))

theorem scanHrefs_neg {c : Char} {cs : Str} (h : matchHref (c :: cs) = none) :
    scanHrefs (c :: cs) = scanHrefs cs := by
  simp only [scanHrefs, List.length_cons, scanHrefsF, h]

/-- HrefScan through-lemma: a block inside which no match starts
contributes nothing. -/
theorem scanHrefs_through {x r : Str}
    (h : ScanSafe (fun s => (matchHref s).isSome) x r) :
    scanHrefs (x ++ r) = scanHrefs r := by
  induction x with
  | nil => simp
  | cons c xs ih =>
    have hno : matchHref (c :: (xs ++ r)) = none := by
      rcases h1 : matchHref (c :: (xs ++ r)) with _ | p
      · rfl
      · exact absurd (by simp [h1]) (h [] (c :: xs) (by simp) (by simp))
    simp only [List.cons_append]
    rw [scanHrefs_neg hno, ih (scanSafe_of_cons h)]

theorem matchHref_head {c : Char} {cs : Str} (hc : c ≠ 'h') :
    matchHref (c :: cs) = none := by
  have e : hrefLit = 'h' :: ("ref=".toList ++ [qc]) := by decide
  have hd : dropPrefixExact hrefLit (c :: cs) = none := by
    rw [e]
    simp [dropPrefixExact, hc]
  simp [matchHref, hd]

theorem mem_take_mono {α : Type} {a : α} {l : List α} {k n : Nat} (hk : k ≤ n)
    (h : a ∈ l.take k) : a ∈ l.take n := by
  have e : l.take k = (l.take n).take k := by
    rw [List.take_take, Nat.min_eq_left hk]
  rw [e] at h
  exact List.take_subset _ _ h

theorem prefix_quote_mem_take {x r : Str} (h : (x ++ [qc]) <+: r)
    (hx : x.length < 5) : qc ∈ r.take 5 := by
  obtain ⟨tl, htl⟩ := h
  subst htl
  rw [List.take_append_eq_append_take]
  refine List.mem_append.mpr (Or.inl ?_)
  rw [List.take_of_length_le (by simp [List.length_append]; omega)]
  simp

/-- A literal whose sixth character is the only quote cannot match
starting inside quote-free text when the following five characters of
the rest are also quote-free. -/
theorem quote_at5_not_prefix {w v r : Str} (hw : w.length ≤ 5) (hv : qc ∉ v)
    (hvne : v ≠ []) (hr : qc ∉ r.take 5) : ¬ (w ++ [qc]) <+: (v ++ r) := by
  induction v generalizing w with
  | nil => exact absurd rfl hvne
  | cons c vs ih =>
    intro hpre
    cases w with
    | nil =>
      simp only [List.nil_append, List.cons_append] at hpre
      have := (List.cons_prefix_cons.mp hpre).1
      exact hv (this ▸ List.mem_cons_self _ _)
    | cons w0 ws =>
      simp only [List.cons_append] at hpre
      have h2 := (List.cons_prefix_cons.mp hpre).2
      cases vs with
      | nil =>
        simp only [List.nil_append] at h2
        simp only [List.length_cons] at hw
        exact hr (prefix_quote_mem_take h2 (by omega))
      | cons d vs' =>
        simp only [List.length_cons] at hw
        exact ih (by omega : ws.length ≤ 5)
          (fun h => hv (List.mem_cons_of_mem _ h)) (by simp) h2

/-- A quote-free pattern that is not a prefix of the quote-free `u`
cannot be a prefix of `u` followed by a quote. -/
theorem no_prefix_with_quote {p u r : Str} (hqp : qc ∉ p) (hpu : ¬ p <+: u)
    (hqu : qc ∉ u) : ¬ p <+: (u ++ (qc :: r)) := by
  induction p generalizing u with
  | nil => exact absurd List.nil_prefix hpu
  | cons a ps ih =>
    intro hpre
    cases u with
    | nil =>
      simp only [List.nil_append] at hpre
      have := (List.cons_prefix_cons.mp hpre).1
      exact hqp (this ▸ List.mem_cons_self _ _)
    | cons b us =>
      simp only [List.cons_append] at hpre
      obtain ⟨hab, h2⟩ := List.cons_prefix_cons.mp hpre
      subst hab
      exact ih (fun h => hqp (List.mem_cons_of_mem _ h))
        (fun h => hpu (List.cons_prefix_cons.mpr ⟨rfl, h⟩))
        (fun h => hqu (List.mem_cons_of_mem _ h)) h2

/-- If `w` and `v` are quote-free and `w"` is a prefix of `v"...`, the
quote positions must align: `v = w`. -/
theorem quote_prefix_eq {w v r : Str} (hqw : qc ∉ w) (hqv : qc ∉ v)
    (h : (w ++ [qc]) <+: (v ++ (qc :: r))) : v = w := by
  induction w generalizing v with
  | nil =>
    cases v with
    | nil => rfl
    | cons c vs =>
      simp only [List.nil_append, List.cons_append] at h
      have := (List.cons_prefix_cons.mp h).1
      exact absurd this.symm (fun he => hqv (he ▸ List.mem_cons_self _ _))
  | cons a ws ih =>
    cases v with
    | nil =>
      simp only [List.cons_append, List.nil_append] at h
      have := (List.cons_prefix_cons.mp h).1
      exact absurd this (fun he => hqw (he ▸ List.mem_cons_self _ _))
    | cons c vs =>
      simp only [List.cons_append] at h
      obtain ⟨hac, h2⟩ := List.cons_prefix_cons.mp h
      subst hac
      rw [ih (fun hh => hqw (List.mem_cons_of_mem _ hh))
        (fun hh => hqv (List.mem_cons_of_mem _ hh)) h2]

/-- A listing-page segment: plain text, an allow-domain article link
`href="https://www.anthropic.com/tail"`, or some other hyperlink
`href="url"` whose URL does not start with the site origin. -/
inductive LSeg
  | text (s : Str)
  | link (tail : Str)
  | other (url : Str)

def LSeg.render : LSeg → Str
  | .text s => s
  | .link t => hrefLit ++ (domainLit ++ t) ++ [qc]
  | .other u => hrefLit ++ u ++ [qc]

def lrenderAll (l : List LSeg) : Str := (l.map LSeg.render).flatten

theorem lrenderAll_cons (g : LSeg) (l : List LSeg) :
    lrenderAll (g :: l) = g.render ++ lrenderAll l := by
  simp [lrenderAll]

/-- The word `href=` without its quote. -/
def hrefWord : Str := "href=".toList

/-- Well-formedness of a listing segment: quote-free text and URLs, no
`href=` fragment hiding inside a URL, and `other` URLs off the site
origin. -/
def lsegOk : LSeg → Prop
  | .text s => qc ∉ s
  | .link t => t ≠ [] ∧ qc ∉ t ∧ ¬ hrefWord <:+: t
  | .other u => qc ∉ u ∧ ¬ domainLit <+: u ∧ ¬ hrefWord <:+: u

instance (g : LSeg) : Decidable (lsegOk g) := by
  cases g with
  | text s => exact inferInstanceAs (Decidable (qc ∉ s))
  | link t => exact inferInstanceAs (Decidable (t ≠ [] ∧ qc ∉ t ∧ ¬ hrefWord <:+: t))
  | other u =>
    exact inferInstanceAs (Decidable (qc ∉ u ∧ ¬ domainLit <+: u ∧ ¬ hrefWord <:+: u))

/-- The full URLs of the allow-domain links, in document order. -/
def linkUrls : List LSeg → List Str
  | [] => []
  | .link t :: rest => (domainLit ++ t) :: linkUrls rest
  | .text _ :: rest => linkUrls rest
  | .other _ :: rest => linkUrls rest

/-- The first five characters of a well-formed listing rendering are
quote-free (each segment kind starts with `href=` or quote-free text). -/
theorem lrender_take5 {segs : List LSeg} (h : ∀ g ∈ segs, lsegOk g) :
    qc ∉ (lrenderAll segs).take 5 := by
  induction segs with
  | nil => simp [lrenderAll]
  | cons g rest ih =>
    have hrest : ∀ g' ∈ rest, lsegOk g' :=
      fun g' hg' => h g' (List.mem_cons_of_mem _ hg')
    have hword : qc ∉ ("href=".toList : Str) := by decide
    cases g with
    | text s =>
      have hs : qc ∉ s := h _ (List.mem_cons_self _ _)
      rw [lrenderAll_cons]
      show qc ∉ (s ++ lrenderAll rest).take 5
      rw [List.take_append_eq_append_take]
      intro hmem
      rcases List.mem_append.mp hmem with h1 | h1
      · exact hs (List.take_subset _ _ h1)
      · exact ih hrest (mem_take_mono (by omega) h1)
    | link t =>
      rw [lrenderAll_cons]
      have e : LSeg.render (.link t) ++ lrenderAll rest =
          "href=".toList ++ ([qc] ++ ((domainLit ++ t) ++ ([qc] ++ lrenderAll rest))) := by
        simp [LSeg.render, hrefLit, List.append_assoc]
      rw [e, List.take_append_eq_append_take]
      intro hmem
      rcases List.mem_append.mp hmem with h1 | h1
      · exact hword (List.take_subset _ _ h1)
      · rw [show (("href=".toList : Str)).length = 5 by decide] at h1
        simp at h1
    | other u =>
      rw [lrenderAll_cons]
      have e : LSeg.render (.other u) ++ lrenderAll rest =
          "href=".toList ++ ([qc] ++ (u ++ ([qc] ++ lrenderAll rest))) := by
        simp [LSeg.render, hrefLit, List.append_assoc]
      rw [e, List.take_append_eq_append_take]
      intro hmem
      rcases List.mem_append.mp hmem with h1 | h1
      · exact hword (List.take_subset _ _ h1)
      · rw [show (("href=".toList : Str)).length = 5 by decide] at h1
        simp at h1

theorem scanSafe_not_h {x r : Str} (h : ∀ c ∈ x, c ≠ 'h') :
    ScanSafe (fun s => (matchHref s).isSome) x r :=
  scanSafe_heads fun c hc tl => by simp [matchHref_head (h c hc)]

/-- No article-link match starts inside quote-free text when the next
five characters are quote-free. -/
theorem scanSafe_ltext {s r : Str} (hs : qc ∉ s) (hr : qc ∉ r.take 5) :
    ScanSafe (fun x => (matchHref x).isSome) s r := by
  intro u v heq hv hP
  rcases h1 : matchHref (v ++ r) with _ | p
  · rw [h1] at hP; simp at hP
  · obtain ⟨url, rest⟩ := p
    have hstart := matchHref_start h1
    have hpre : (hrefWord ++ [qc]) <+: (v ++ r) :=
      List.IsPrefix.trans (List.prefix_append _ _) hstart
    have hqv : qc ∉ v := fun hm => hs (heq ▸ List.mem_append.mpr (Or.inr hm))
    exact quote_at5_not_prefix (by decide) hqv hv hr hpre

/-- No article-link match starts anywhere inside a well-formed `other`
hyperlink. -/
theorem scanSafe_lother {u : Str} (hu1 : qc ∉ u) (hu2 : ¬ domainLit <+: u)
    (hu3 : ¬ hrefWord <:+: u) (r : Str) :
    ScanSafe (fun x => (matchHref x).isSome) (LSeg.render (.other u)) r := by
  have hqclose : ∀ tl : Str, matchHref (qc :: tl) = none :=
    fun tl => matchHref_head (by decide)
  have S3 : ScanSafe (fun x => (matchHref x).isSome) (u ++ [qc]) r := by
    intro a v heq hv hP
    rcases h1 : matchHref (v ++ r) with _ | p
    · rw [h1] at hP; simp at hP
    · obtain ⟨url, rest⟩ := p
      have hstart := matchHref_start h1
      have hpre : (hrefWord ++ [qc]) <+: (v ++ r) :=
        List.IsPrefix.trans (List.prefix_append _ _) hstart
      rcases List.append_eq_append_iff.mp heq with ⟨w, hw1, hw2⟩ | ⟨w, hw1, hw2⟩
      · cases w with
        | nil =>
          simp only [List.nil_append] at hw2
          subst hw2
          rw [List.singleton_append, hqclose r] at h1
          cases h1
        | cons x xs =>
          rw [List.cons_append] at hw2
          injection hw2 with hx htail
          exact absurd (List.append_eq_nil.mp htail.symm).2 hv
      · cases w with
        | nil =>
          simp only [List.nil_append] at hw2
          subst hw2
          rw [List.singleton_append, hqclose r] at h1
          cases h1
        | cons c w' =>
          have hqw : qc ∉ (c :: w' : Str) := by
            intro hm
            exact hu1 (hw1 ▸ List.mem_append.mpr (Or.inr hm))
          have e : v ++ r = (c :: w') ++ (qc :: r) := by
            rw [hw2]
            simp
          rw [e] at hpre
          have := quote_prefix_eq (by decide) hqw hpre
          exact hu3 ⟨a, [], by rw [← this, ← hw1]; simp⟩
  have S2 : ScanSafe (fun x => (matchHref x).isSome) (hrefWord ++ [qc])
      ((u ++ [qc]) ++ r) := by
    refine scanSafe_append ?_ ?_
    · have e : hrefWord = 'h' :: "ref=".toList := by decide
      rw [e]
      refine scanSafe_cons ?_ (scanSafe_not_h (by decide))
      intro hP
      have e2 : 'h' :: ("ref=".toList ++ ([qc] ++ ((u ++ [qc]) ++ r))) =
          hrefLit ++ (u ++ (qc :: r)) := by
        simp [hrefLit, List.append_assoc]
      rw [e2] at hP
      have hd : dropPrefixExact domainLit (u ++ (qc :: r)) = none :=
        dropPrefixExact_of_not_prefix
          (no_prefix_with_quote (by decide) hu2 hu1)
      simp only [matchHref, dropPrefixExact_self, Option.some_bind, hd,
        Option.none_bind] at hP
      simp at hP
    · exact scanSafe_heads fun c hc tl => by
        simp only [List.mem_singleton] at hc
        subst hc
        simp [hqclose]
  have e : LSeg.render (.other u) = (hrefWord ++ [qc]) ++ (u ++ [qc]) := by
    simp [LSeg.render, hrefLit, hrefWord, List.append_assoc]
  rw [e]
  exact scanSafe_append S2 S3

theorem matchHref_nil : matchHref [] = none := by decide

theorem scanHrefs_pos' {s url rest : Str} (h : matchHref s = some (url, rest)) :
    scanHrefs s = url :: scanHrefs rest := by
  cases s with
  | nil => rw [matchHref_nil] at h; cases h
  | cons c cs => exact scanHrefs_pos h

/-- The scanner on a well-formed listing rendering returns exactly the
allow-domain link URLs in document order. -/
theorem scanHrefs_lrender {segs : List LSeg} (h : ∀ g ∈ segs, lsegOk g) :
    scanHrefs (lrenderAll segs) = linkUrls segs := by
  induction segs with
  | nil => rfl
  | cons g rest ih =>
    have hg := h g (List.mem_cons_self _ _)
    have hrest : ∀ g' ∈ rest, lsegOk g' :=
      fun g' hg' => h g' (List.mem_cons_of_mem _ hg')
    have hr5 : qc ∉ (lrenderAll rest).take 5 := lrender_take5 hrest
    cases g with
    | text s =>
      rw [lrenderAll_cons]
      show scanHrefs (s ++ lrenderAll rest) = _
      rw [scanHrefs_through (scanSafe_ltext hg hr5), ih hrest]
      simp [linkUrls]
    | link t =>
      obtain ⟨ht1, ht2, _⟩ := hg
      have hm := @matchHref_self t (lrenderAll rest) ht1 ht2
      rw [lrenderAll_cons]
      show scanHrefs ((hrefLit ++ (domainLit ++ t) ++ [qc]) ++ lrenderAll rest) = _
      rw [scanHrefs_pos' hm, ih hrest]
      simp [linkUrls]
    | other u =>
      obtain ⟨hu1, hu2, hu3⟩ := hg
      rw [lrenderAll_cons]
      rw [scanHrefs_through (scanSafe_lother hu1 hu2 hu3 _), ih hrest]
      simp [linkUrls]

/-- The allow-list check of index.js:
`url.includes('/news/') || url.includes('/engineering/') || url.includes('/research/')`. -/
def allowedArticleUrl (u : Str) : Bool :=
  decide ("/news/".toList <:+: u) || decide ("/engineering/".toList <:+: u) ||
    decide ("/research/".toList <:+: u)

/-- JavaScript `Set.add`: insertion-ordered, first occurrence kept. -/
def addToSet (acc : List Str) (u : Str) : List Str :=
  if u ∈ acc then acc else acc ++ [u]

/-- Iterating a JavaScript `Set` built by insertion: first-occurrence
deduplication preserving order. -/
def dedupFirst (l : List Str) : List Str := l.foldl addToSet []

/-- index.js `extractArticles` (lines 146-159): scan every match of the
article-link regex, keep the allow-listed URLs in a `Set`, and return
`Array.from(articleUrls).slice(0, 3)`. -/
def extractArticles (html : Str) : List Str :=
  ((scanHrefs html).foldl
    (fun acc u => if allowedArticleUrl u then addToSet acc u else acc) []).take 3

theorem foldl_guard_filter (l : List Str) (acc : List Str) :
    l.foldl (fun acc u => if allowedArticleUrl u then addToSet acc u else acc) acc =
      (l.filter allowedArticleUrl).foldl addToSet acc := by
  induction l generalizing acc with
  | nil => rfl
  | cons a l ih =>
    simp only [List.foldl_cons, List.filter_cons]
    by_cases ha : allowedArticleUrl a = true
    · rw [if_pos ha, if_pos ha]
      exact ih (addToSet acc a)
    · rw [if_neg ha, if_neg ha]
      exact ih acc

theorem foldl_addToSet_nodup (l : List Str) (acc : List Str) (h : acc.Nodup) :
    (l.foldl addToSet acc).Nodup := by
  induction l generalizing acc with
  | nil => exact h
  | cons a l ih =>
    simp only [List.foldl_cons]
    refine ih _ ?_
    unfold addToSet
    split
    · exact h
    · rename_i hmem
      simp [List.nodup_append, h, hmem]

theorem foldl_addToSet_mem (l : List Str) (acc : List Str) (u : Str) :
    u ∈ l.foldl addToSet acc ↔ u ∈ acc ∨ u ∈ l := by
  induction l generalizing acc with
  | nil => simp
  | cons a l ih =>
    simp only [List.foldl_cons, ih]
    unfold addToSet
    split
    · rename_i hmem
      constructor
      · rintro (h | h)
        · exact Or.inl h
        · exact Or.inr (List.mem_cons_of_mem _ h)
      · rintro (h | h)
        · exact Or.inl h
        · rcases List.mem_cons.mp h with he | hm
          · exact Or.inl (he ▸ hmem)
          · exact Or.inr hm
    · constructor
      · rintro (h | h)
        · rcases List.mem_append.mp h with hm | hm
          · exact Or.inl hm
          · simp only [List.mem_singleton] at hm
            exact Or.inr (hm ▸ List.mem_cons_self _ _)
        · exact Or.inr (List.mem_cons_of_mem _ h)
      · rintro (h | h)
        · exact Or.inl (List.mem_append.mpr (Or.inl h))
        · rcases List.mem_cons.mp h with he | hm
          · exact Or.inl (List.mem_append.mpr (Or.inr (by simp [he])))
          · exact Or.inr hm

/-! ## Claim C7: the article discoverer -/

/-- C7: on a well-formed listing page containing allow-domain article
links (the `link` segments) and non-matching links (`other` segments
and non-allow-listed `link` segments), `extractArticles` returns the
first-occurrence deduplication of the allow-listed link URLs in
document order, truncated to three: so exactly `min N 3` URLs where `N`
is the number of distinct allow-listed links, without duplicates, all
allow-listed, and none of the non-matching URLs. -/
theorem c7_discoverer_order_cap (segs : List LSeg) (h : ∀ g ∈ segs, lsegOk g) :
    extractArticles (lrenderAll segs) =
      (dedupFirst ((linkUrls segs).filter allowedArticleUrl)).take 3 ∧
    (extractArticles (lrenderAll segs)).length =
      min (dedupFirst ((linkUrls segs).filter allowedArticleUrl)).length 3 ∧
    (extractArticles (lrenderAll segs)).Nodup ∧
    ∀ u ∈ extractArticles (lrenderAll segs),
      allowedArticleUrl u = true ∧ u ∈ linkUrls segs := by
  have e : extractArticles (lrenderAll segs) =
      (dedupFirst ((linkUrls segs).filter allowedArticleUrl)).take 3 := by
    unfold extractArticles dedupFirst
    rw [scanHrefs_lrender h, foldl_guard_filter]
  refine ⟨e, ?_, ?_, ?_⟩
  · rw [e, List.length_take, Nat.min_comm]
  · rw [e]
    exact (foldl_addToSet_nodup _ _ (by simp)).sublist (List.take_sublist _ _)
  · intro u hu
    rw [e] at hu
    have h1 : u ∈ dedupFirst ((linkUrls segs).filter allowedArticleUrl) :=
      List.take_subset _ _ hu
    have h2 : u ∈ (linkUrls segs).filter allowedArticleUrl := by
      rcases (foldl_addToSet_mem _ _ _).mp h1 with hc | hc
      · simp at hc
      · exact hc
    have h3 := List.mem_filter.mp h2
    exact ⟨h3.2, h3.1⟩

/-- Example listing page: four distinct allow-listed links (one of them
repeated), one allow-domain non-article link, one off-site link. -/
def listingEx : List LSeg :=
  [LSeg.text "<div>".toList,
   LSeg.link "news/a1".toList,
   LSeg.text " and ".toList,
   LSeg.other "https://twitter.com/anthropic".toList,
   LSeg.link "pricing".toList,
   LSeg.link "news/a1".toList,
   LSeg.link "research/r1".toList,
   LSeg.link "engineering/e1".toList,
   LSeg.link "news/a2".toList]

/-- C7 witness: the discoverer theorem applied to the example page. -/
theorem c7_discoverer_witness :
    extractArticles (lrenderAll listingEx) =
      (dedupFirst ((linkUrls listingEx).filter allowedArticleUrl)).take 3 ∧
    (extractArticles (lrenderAll listingEx)).Nodup :=
  ⟨(c7_discoverer_order_cap listingEx (by decide)).1,
   (c7_discoverer_order_cap listingEx (by decide)).2.2.1⟩

/-! ## Claim C2: sent URLs are excluded from discovery -/

/-- One record of the state file `sent-articles.json`. -/
structure SentRecord where
  url : Str
  title : Str
  dateStr : Str
deriving DecidableEq

/-- The run state `{ sent, lastCheck }` loaded by `loadSentArticles`. -/
structure RunState where
  sent : List SentRecord
  lastCheck : Option Str

/-- `new Set(data.sent.map(a => a.url))` built at the start of `main`. -/
def sentUrls (data : RunState) : List Str := data.sent.map SentRecord.url

/-- The discovery loop of `main` (index.js lines 305-331): for each
listing page, extract articles and keep the URLs not in `sentUrls`. -/
def newArticles (data : RunState) (pagesHtml : List Str) : List Str :=
  (pagesHtml.map (fun h => (extractArticles h).filter
    (fun u => ! decide (u ∈ sentUrls data)))).flatten

/-- C2: every URL in `newArticles` is absent from the set of URLs of
the loaded state's sent list, so a URL recorded as sent is never
re-fetched or re-sent by a later run (`downloadArticle` is only invoked
on members of `newArticles`). -/
theorem c2_sent_urls_excluded (data : RunState) (pagesHtml : List Str) :
    ∀ u ∈ newArticles data pagesHtml, u ∉ sentUrls data := by
  intro u hu
  unfold newArticles at hu
  rw [List.mem_flatten] at hu
  obtain ⟨l, hl, hul⟩ := hu
  rw [List.mem_map] at hl
  obtain ⟨page, _, hpage⟩ := hl
  rw [← hpage] at hul
  have := (List.mem_filter.mp hul).2
  simpa using this

/-- Example state: one article already sent. -/
def sentStateEx : RunState :=
  ⟨[⟨"https://www.anthropic.com/news/a1".toList, "A1".toList, "2026-02-01".toList⟩],
   some "2026-02-01".toList⟩

/-- C2 witness: on a listing page containing both the already-sent URL
and a fresh one, the fresh URL is in `newArticles` and the theorem
yields that it is not among the sent URLs. -/
theorem c2_sent_urls_witness :
    "https://www.anthropic.com/news/a2".toList ∉ sentUrls sentStateEx :=
  c2_sent_urls_excluded sentStateEx
    [lrenderAll [LSeg.link "news/a1".toList, LSeg.link "news/a2".toList]]
    "https://www.anthropic.com/news/a2".toList (by decide)

/-! ## Claim C4 machinery: the image download outcome model

A network interaction is a chain of per-request outcomes: a reply (with
status code, headers and body), a transport error event, or the
expiry of the client-side timer.  Redirect replies consume the next
element of the chain. -/

/-- Response headers used by the source: `location` and `content-type`. -/
structure RespHeaders where
  location : Str
  contentType : Option Str
deriving DecidableEq

/-- One per-request outcome. -/
inductive Resp
  | reply (code : Nat) (headers : RespHeaders) (body : List Nat)
  | netError
  | timedOut
deriving DecidableEq

/-- Base64 digit. -/
def b64Char (n : Nat) : Char :=
  if n < 26 then Char.ofNat (65 + n)
  else if n < 52 then Char.ofNat (97 + (n - 26))
  else if n < 62 then Char.ofNat (48 + (n - 52))
  else if n = 62 then '+' else '/'

/-- Base64 of a byte list (`buffer.toString('base64')`). -/
def base64 : List Nat → List Char
  | [] => []
  | [a] =>
    [b64Char ((a % 256) / 4), b64Char ((a % 4) * 16), '=', '=']
  | [a, b] =>
    [b64Char ((a % 256) / 4), b64Char ((a % 4) * 16 + (b % 256) / 16),
     b64Char ((b % 16) * 4), '=']
  | a :: b :: c :: rest =>
    b64Char ((a % 256) / 4) :: b64Char ((a % 4) * 16 + (b % 256) / 16) ::
      b64Char ((b % 16) * 4 + (c % 256) / 64) :: b64Char (c % 64) :: base64 rest

/-- `data:${contentType};base64,${...}` as built by `downloadImage`. -/
def dataUri (ct : Str) (body : List Nat) : Str :=
  "data:".toList ++ ct ++ ";base64,".toList ++ base64 body

/-- compile-epub.js `downloadImage` (lines 15-60): empty and `data:`
URLs resolve null immediately (never issuing a request); site-relative
URLs get the origin prepended; 301/302 recurses on the location header;
non-200 replies, transport errors and the 10-second timer all resolve
null; a 200 reply resolves the base64 data URI.  The chain argument
comes first so the recursion is structural. -/
def downloadImage : List Resp → Str → Option Str
  | [], _ => none
  | Resp.timedOut :: _, _ => none
  | Resp.netError :: _, _ => none
  | Resp.reply code h body :: rest, url =>
    if url = [] ∨ "data:".toList <+: url then none
    else if code = 301 ∨ code = 302 then downloadImage rest h.location
    else if code = 200 then
      some (dataUri (h.contentType.getD "image/jpeg".toList) body)
    else none

/-- index.js `downloadFile` (lines 48-80): 301/302 recurses on the
location header; a non-200 reply REJECTS with `HTTP <code>`; a
transport error REJECTS; a 200 reply resolves the file path.  There is
no timeout: `none` models a request that never settles. -/
def downloadFile (filepath : Str) : List Resp → Option (Except Str Str)
  | [] => none
  | Resp.timedOut :: _ => none
  | Resp.netError :: _ => some (Except.error "network error".toList)
  | Resp.reply code _ _ :: rest =>
    if code = 301 ∨ code = 302 then downloadFile filepath rest
    else if code = 200 then some (Except.ok filepath)
    else some (Except.error ("HTTP ".toList ++ (Nat.repr code).toList))

/-- A chain whose final handled element is a failure for the image
downloader: timer expiry, transport error, or a non-2xx non-redirect
reply (redirects are followed first). -/
def failureOutcome : List Resp → Bool
  | [] => false
  | Resp.timedOut :: _ => true
  | Resp.netError :: _ => true
  | Resp.reply code _ _ :: rest =>
    if code = 301 ∨ code = 302 then failureOutcome rest
    else decide (code ≠ 200)

/-! ## Claim C4: failure behavior of the image downloads -/

/-- C4 counterexample: the claim says the image download operation
resolves with a null sentinel rather than rejecting on any failure, but
the index.js variant `downloadFile` (also cited by the claim) rejects:
a 404 reply produces `reject(new Error('HTTP 404'))`, and a transport
error also rejects. -/
theorem c4_downloadFile_counterexample :
    downloadFile "img.jpg".toList [Resp.reply 404 ⟨[], none⟩ []] =
      some (Except.error "HTTP 404".toList) ∧
    downloadFile "img.jpg".toList [Resp.netError] =
      some (Except.error "network error".toList) := by
  constructor <;> rfl

/-- C4 (amended): compile-epub.js `downloadImage` resolves the null
sentinel on every failure outcome (timer expiry, transport error,
non-2xx reply, in each case after following redirects) and never
rejects; index.js `downloadFile`, by contrast, rejects with an error on
a non-2xx reply and on a transport error. -/
theorem c4_download_failures (url : Str) (chain : List Resp)
    (h : failureOutcome chain = true) :
    downloadImage chain url = none ∧
    (∀ fp code hd body rest, ¬ (code = 301 ∨ code = 302) → code ≠ 200 →
      downloadFile fp (Resp.reply code hd body :: rest) =
        some (Except.error ("HTTP ".toList ++ (Nat.repr code).toList))) := by
  constructor
  · induction chain generalizing url with
    | nil => simp [failureOutcome] at h
    | cons e rest ih =>
      cases e with
      | timedOut => rfl
      | netError => rfl
      | reply code hd body =>
        simp only [downloadImage]
        split
        · rfl
        · simp only [failureOutcome] at h
          split at h
          · rename_i hx hredir
            rw [if_pos hredir]
            exact ih hd.location h
          · rename_i hx hredir
            rw [if_neg hredir, if_neg (by simpa using h)]
  · intro fp code hd body rest h1 h2
    simp [downloadFile, h1, h2]

/-- C4 witness: the amended theorem at a concrete chain — a redirect
followed by a 500 reply resolves null in `downloadImage`, and the
`downloadFile` half applied at a 404. -/
theorem c4_download_failures_witness :
    downloadImage
      [Resp.reply 302 ⟨"https://x/b.png".toList, none⟩ [],
       Resp.reply 500 ⟨[], none⟩ []] "https://x/a.png".toList = none ∧
    downloadFile "f".toList (Resp.reply 404 ⟨[], none⟩ [] :: []) =
      some (Except.error ("HTTP ".toList ++ (Nat.repr 404).toList)) :=
  ⟨(c4_download_failures "https://x/a.png".toList
      [Resp.reply 302 ⟨"https://x/b.png".toList, none⟩ [],
       Resp.reply 500 ⟨[], none⟩ []] (by decide)).1,
   (c4_download_failures [] [Resp.timedOut] (by decide)).2
      "f".toList 404 ⟨[], none⟩ [] [] (by decide) (by decide)⟩

/-! ## Claim C9: fetchUrl redirect recursion -/

/-- Body bytes rendered as text (`data += chunk`). -/
def bodyText (body : List Nat) : Str := body.map Char.ofNat

/-- index.js `fetchUrl` (lines 123-143) against a deterministic server
behavior, with fuel counting the requests made so far: a 301/302 reply
recursively re-invokes the fetch on the location header; any other
reply resolves the accumulated body (there is no status check and no
depth limit in the source); a transport error rejects.  `none` means
the fetch has not settled within `fuel` requests. -/
def fetchUrlF (server : Str → Resp) : Nat → Str → Option (Except Str Str)
  | 0, _ => none
  | n + 1, url =>
    match server url with
    | Resp.reply code h body =>
      if code = 301 ∨ code = 302 then fetchUrlF server n h.location
      else some (Except.ok (bodyText body))
    | Resp.netError => some (Except.error "network error".toList)
    | Resp.timedOut => none

/-- A server behavior that always redirects back to the same URL. -/
def loopServer : Str → Resp :=
  fun _ => Resp.reply 301 ⟨"https://www.anthropic.com/news".toList, none⟩ []

/-- C9 counterexample: the claim says `fetchUrl` terminates for every
redirect chain — "given any server behavior, the fetch operation
eventually returns or rejects".  Against a server that always answers
301, the recursion never settles: no request budget suffices. -/
theorem c9_fetch_nontermination :
    ¬ ∃ n, (fetchUrlF loopServer n "https://www.anthropic.com/news".toList).isSome := by
  rintro ⟨n, hn⟩
  have key : ∀ (m : Nat) (u : Str), fetchUrlF loopServer m u = none := by
    intro m
    induction m with
    | zero => intro u; rfl
    | succ m ih =>
      intro u
      have e : fetchUrlF loopServer (m + 1) u =
          fetchUrlF loopServer m "https://www.anthropic.com/news".toList := rfl
      rw [e]
      exact ih _
  rw [key n _] at hn
  simp at hn

/-- Whether the redirect chain from `url` reaches a non-redirect
outcome within `n` requests. -/
def resolvesWithin (server : Str → Resp) : Nat → Str → Bool
  | 0, _ => false
  | n + 1, url =>
    match server url with
    | Resp.reply code h _ =>
      if code = 301 ∨ code = 302 then resolvesWithin server n h.location
      else true
    | Resp.netError => true
    | Resp.timedOut => false

/-- C9 (amended): `fetchUrl` follows 301/302 by recursing on the
location target, and it settles exactly when the redirect chain is
finite: whenever the chain from the URL reaches a non-redirect outcome
within `n` requests, the fetch resolves or rejects within `n` requests.
The source has no depth bound, so an infinite chain recurses forever
(see the counterexample). -/
theorem c9_fetch_terminates_on_finite_chains (server : Str → Resp) (n : Nat)
    (url : Str) (h : resolvesWithin server n url = true) :
    (fetchUrlF server n url).isSome = true := by
  induction n generalizing url with
  | zero => simp [resolvesWithin] at h
  | succ n ih =>
    rcases hs : server url with ⟨code, hd, body⟩ | _ | _
    · simp only [resolvesWithin, hs] at h
      simp only [fetchUrlF, hs]
      split at h
      · rename_i hredir
        rw [if_pos hredir]
        exact ih _ h
      · rename_i hredir
        rw [if_neg hredir]
        rfl
    · simp only [fetchUrlF, hs]
      rfl
    · simp only [resolvesWithin, hs] at h
      simp at h

/-- A server with one redirect hop then content. -/
def hopServer : Str → Resp :=
  fun u =>
    if u = "https://a".toList then Resp.reply 302 ⟨"https://b".toList, none⟩ []
    else Resp.reply 200 ⟨[], none⟩ [104, 105]

/-- C9 witness: the amended theorem applied to a two-request chain. -/
theorem c9_fetch_terminates_witness :
    (fetchUrlF hopServer 2 "https://a".toList).isSome = true :=
  c9_fetch_terminates_on_finite_chains hopServer 2 "https://a".toList (by decide)

/-! ## Claim C6: mail dispatch failure -/

/-- The two sends of a run. -/
inductive Mail
  | kindle
  | confirm
deriving DecidableEq

/-- Observable on-disk state: the written output HTML document (if
any) and the contents of the state file `sent-articles.json`. -/
structure FsState where
  htmlFile : Option Str
  stateFile : RunState

/-- The dispatch tail of `main` (index.js lines 382-411): the HTML file
is written first (`fs.writeFileSync(htmlPath, htmlContent)`); then the
primary send to the Kindle address is awaited; then the confirmation
send; only after both does `saveSentArticles(data)` write the updated
state (with the run's articles pushed and `lastCheck` set).  An awaited
send rejecting makes the whole run reject (`main().catch`), skipping
everything after it.  Returns the final disk state, the attempted
sends, and whether the run ended successfully. -/
def dispatchPhase (fs0 : FsState) (htmlContent : Str) (newData : RunState)
    (send1Ok send2Ok : Bool) : FsState × List Mail × Bool :=
  let fs1 := FsState.mk (some htmlContent) fs0.stateFile
  if send1Ok = false then (fs1, [Mail.kindle], false)
  else if send2Ok = false then (fs1, [Mail.kindle, Mail.confirm], false)
  else (FsState.mk (some htmlContent) newData, [Mail.kindle, Mail.confirm], true)

/-- C6 counterexample: the claim says that when mail dispatch fails the
state file still records the articles processed in this run.  It does
not: `saveSentArticles` runs only after both sends succeed, so on a
failed primary send the state file keeps its old contents (here: the
empty initial state, not the new record). -/
theorem c6_dispatch_counterexample :
    (dispatchPhase (FsState.mk none (RunState.mk [] none)) "<html/>".toList
        (RunState.mk
          [SentRecord.mk "https://www.anthropic.com/news/a1".toList "A1".toList
            "2026-02-07".toList] (some "2026-02-07".toList))
        false true).1.stateFile.sent = [] := by
  rfl

/-- C6 (amended): if the primary or the confirmation send fails, the
run terminates as a failure and the already-written HTML document stays
on disk, but the updated run state is NOT persisted: the state file
keeps its pre-run contents, so this run's articles will be rediscovered
as new on the next run.  A failed confirmation send never rolls back or
resends the primary delivery: the primary send is attempted exactly
once. -/
theorem c6_dispatch_failure (fs0 : FsState) (htmlContent : Str)
    (newData : RunState) (send1Ok send2Ok : Bool)
    (h : send1Ok = false ∨ send2Ok = false) :
    (dispatchPhase fs0 htmlContent newData send1Ok send2Ok).2.2 = false ∧
    (dispatchPhase fs0 htmlContent newData send1Ok send2Ok).1.htmlFile =
      some htmlContent ∧
    (dispatchPhase fs0 htmlContent newData send1Ok send2Ok).1.stateFile =
      fs0.stateFile ∧
    ((dispatchPhase fs0 htmlContent newData send1Ok send2Ok).2.1).count
      Mail.kindle = 1 := by
  cases hs1 : send1Ok with
  | false => simp [dispatchPhase]
  | true =>
    cases hs2 : send2Ok with
    | false => simp [dispatchPhase]
    | true => rw [hs1, hs2] at h; simp at h

/-- C6 witness: the amended theorem at a concrete failing confirmation
send. -/
theorem c6_dispatch_failure_witness :
    (dispatchPhase (FsState.mk none (RunState.mk [] none)) "<html/>".toList
        (RunState.mk [] (some "2026-02-07".toList)) true false).2.2 = false ∧
    (dispatchPhase (FsState.mk none (RunState.mk [] none)) "<html/>".toList
        (RunState.mk [] (some "2026-02-07".toList)) true false).1.stateFile =
      RunState.mk [] none :=
  ⟨(c6_dispatch_failure (FsState.mk none (RunState.mk [] none)) "<html/>".toList
      (RunState.mk [] (some "2026-02-07".toList)) true false (Or.inr rfl)).1,
   (c6_dispatch_failure (FsState.mk none (RunState.mk [] none)) "<html/>".toList
      (RunState.mk [] (some "2026-02-07".toList)) true false (Or.inr rfl)).2.2.1⟩

/-! ## Claim C8: title deduplication of compile-epub.js -/

/-- An extracted article record of compile-epub.js
(`{ title, date, category, content, images, filename }`). -/
structure CArticle where
  title : Str
  dateStr : Str
  category : Str
  content : Str
  images : List Str
  filename : Str
deriving DecidableEq

/-- ASCII model of JavaScript `toLowerCase`. -/
def jsLower (c : Char) : Char :=
  if 65 ≤ c.toNat ∧ c.toNat ≤ 90 then Char.ofNat (c.toNat + 32) else c

/-- Whitespace for `trim`. -/
def isWs (c : Char) : Bool :=
  decide (c = ' ') || decide (c = '\t') || decide (c = '\n') || decide (c = '\r')

/-- JavaScript `trim`: strip leading and trailing whitespace. -/
def trimStr (s : Str) : Str :=
  ((s.dropWhile isWs).reverse.dropWhile isWs).reverse

/-- `article.title.toLowerCase().trim()`. -/
def normTitle (t : Str) : Str := trimStr (t.map jsLower)

/-- The selection loop of compile-epub.js `main` (lines 160-182): skip
an article whose normalized title was already seen; otherwise record
the normalized title and keep the article only if its content is longer
than 500 characters. -/
def selectArticles : List CArticle → List Str → List CArticle
  | [], _ => []
  | a :: rest, seen =>
    if normTitle a.title ∈ seen then selectArticles rest seen
    else if 500 < a.content.length then
      a :: selectArticles rest (normTitle a.title :: seen)
    else selectArticles rest (normTitle a.title :: seen)

theorem selectArticles_count_zero (l : List CArticle) (seen : List Str) (n : Str)
    (h : n ∈ seen) :
    (selectArticles l seen).countP (fun a => decide (normTitle a.title = n)) = 0 := by
  induction l generalizing seen with
  | nil => rfl
  | cons a rest ih =>
    simp only [selectArticles]
    split
    · exact ih seen h
    · rename_i hmem
      split
      · have hne : normTitle a.title ≠ n := fun he => hmem (he ▸ h)
        rw [List.countP_cons, ih _ (List.mem_cons_of_mem _ h)]
        simp [hne]
      · exact ih _ (List.mem_cons_of_mem _ h)

/-- Whether the first article with the given normalized title survives
the 500-character content filter: the count the selection produces. -/
def firstHit (l : List CArticle) (n : Str) : Nat :=
  match l.find? (fun a => decide (normTitle a.title = n)) with
  | some a => if 500 < a.content.length then 1 else 0
  | none => 0

theorem selectArticles_count_first (l : List CArticle) (seen : List Str) (n : Str)
    (h : n ∉ seen) :
    (selectArticles l seen).countP (fun a => decide (normTitle a.title = n)) =
      firstHit l n := by
  induction l generalizing seen with
  | nil => rfl
  | cons a rest ih =>
    by_cases ha : normTitle a.title = n
    · have hfind : firstHit (a :: rest) n =
          (if 500 < a.content.length then 1 else 0) := by
        simp [firstHit, List.find?_cons, ha]
      rw [hfind]
      simp only [selectArticles, if_neg (fun hm => h (ha ▸ hm))]
      split
      · rw [List.countP_cons,
          selectArticles_count_zero _ _ _ (ha ▸ List.mem_cons_self _ _)]
        simp [ha]
      · exact selectArticles_count_zero _ _ _ (ha ▸ List.mem_cons_self _ _)
    · have hfind : firstHit (a :: rest) n = firstHit rest n := by
        simp [firstHit, List.find?_cons, ha]
      rw [hfind]
      simp only [selectArticles]
      split
      · exact ih seen h
      · split
        · have hn2 : n ∉ normTitle a.title :: seen := by
            intro hm
            rcases List.mem_cons.mp hm with he | hm2
            · exact ha he.symm
            · exact h hm2
          rw [List.countP_cons, ih _ hn2]
          simp [ha]
        · refine ih _ ?_
          intro hm
          rcases List.mem_cons.mp hm with he | hm2
          · exact ha he.symm
          · exact h hm2

/-- Articles with titles differing only in case and trailing space, the
first one too short to pass the length filter. -/
def dupShort : CArticle :=
  ⟨"Hello World".toList, [], "News".toList, "short".toList, [], "f1".toList⟩

def dupLong : CArticle :=
  ⟨"hello world ".toList, [], "News".toList, List.replicate 501 'x', [], "f2".toList⟩

/-- C8 counterexample: the claim says that whenever two articles share
a normalized title the assembled document contains exactly one article
with that title.  If the first-seen article is dropped by the 500
character length filter, the second is still skipped as a duplicate
(the title was recorded before the filter), and the document contains
ZERO articles with that title. -/
theorem c8_dedup_counterexample :
    normTitle dupShort.title = normTitle dupLong.title ∧
    selectArticles [dupShort, dupLong] [] = [] := by
  constructor <;> rfl

/-- C8 (amended): among the selected articles, at most one carries any
given normalized title; the later duplicate is always dropped, and the
document contains exactly one article with that title precisely when
the FIRST article bearing it passes the content-length filter —
otherwise it contains none. -/
theorem c8_title_dedup (l : List CArticle) (n : Str) :
    (selectArticles l []).countP (fun a => decide (normTitle a.title = n)) ≤ 1 ∧
    (selectArticles l []).countP (fun a => decide (normTitle a.title = n)) =
      firstHit l n := by
  have he := selectArticles_count_first l [] n (by simp)
  refine ⟨?_, he⟩
  rw [he]
  unfold firstHit
  split
  · split <;> simp
  · simp

/-! ## Image extraction machinery (index.js and compile-epub.js)

The img regexes use `[^>]+` followed by the literal `src="`: greedy
with backtracking, the engine picks the longest feasible attribute run,
i.e. the LAST position at which the literal plus the continuation
match.  `trySplit` walks the candidate split points of the maximal
non-`>` run from the longest down. -/

/-- Greedy run of non-`>` characters and the rest. -/
def spanNoGt : Str → (Str × Str)
  | [] => ([], [])
  | c :: cs =>
    if c = '>' then ([], c :: cs)
    else
      let p := spanNoGt cs
      (c :: p.1, p.2)

theorem spanNoGt_decomp (s : Str) : s = (spanNoGt s).1 ++ (spanNoGt s).2 := by
  induction s with
  | nil => rfl
  | cons c cs ih =>
    simp only [spanNoGt]
    split
    · simp
    · simpa using ih

theorem spanNoGt_append {t r : Str} (ht : '>' ∉ t) :
    spanNoGt (t ++ ('>' :: r)) = (t, '>' :: r) := by
  induction t with
  | nil => simp [spanNoGt]
  | cons c cs ih =>
    have hc : c ≠ '>' := fun h => ht (h ▸ List.mem_cons_self _ _)
    simp only [List.cons_append, spanNoGt, if_neg hc, List.append_eq,
      ih (fun h => ht (List.mem_cons_of_mem _ h))]

/-- The literal `src="`. -/
def srcLit : Str := "src=".toList ++ [qc]

/-- The literal `<img`. -/
def imgLit : Str := "<img".toList

/-- Backtracking over the split points of the `[^>]+` run: `revA` is
the reversed not-yet-relinquished run prefix, `tail` the input after
it.  Try the literal (case-insensitively) and the continuation at the
current split; on failure give one character back and retry, i.e. the
longest feasible split wins.  The run prefix must stay nonempty
(`[^>]+`). -/
def trySplit (lit : Str) (cont : Str → Option (Str × Str)) :
    Str → Str → Option (Str × Str)
  | [], _ => none
  | c :: revA, tail =>
    match dropPrefixCI lit tail with
    | some after =>
      match cont after with
      | some p => some p
      | none => trySplit lit cont revA (c :: tail)
    | none => trySplit lit cont revA (c :: tail)

/-- Continuation `([^"]+)"`: the captured source and the input after
the closing quote (index.js image regex ends at the quote). -/
def contQuoteOnly (s : Str) : Option (Str × Str) :=
  if (spanNoQuote s).1 = [] then none
  else quoteClose (spanNoQuote s).1 (spanNoQuote s).2

/-- Continuation `([^"]+)"[^>]*>` of the compile-epub.js image regex. -/
def contQuoteAttrsGt (s : Str) : Option (Str × Str) :=
  if (spanNoQuote s).1 = [] then none
  else
    match quoteClose (spanNoQuote s).1 (spanNoQuote s).2 with
    | some (url, rest2) => (skipAttrs rest2).map (fun r => (url, r))
    | none => none

/-- One match of index.js `/<img[^>]+src="([^"]+)"/gi` at the head of
the input: captured source and the rest after the closing quote. -/
def matchImgSrc (s : Str) : Option (Str × Str) :=
  (dropPrefixCI imgLit s).bind fun r0 =>
    trySplit srcLit contQuoteOnly (spanNoGt r0).1.reverse (spanNoGt r0).2

/-- One match of compile-epub.js `/<img[^>]+src="([^"]+)"[^>]*>/gi` at
the head of the input: the whole matched tag, the captured source, and
the rest. -/
def matchImgTag (s : Str) : Option (Str × Str × Str) :=
  match (dropPrefixCI imgLit s).bind fun r0 =>
      trySplit srcLit contQuoteAttrsGt (spanNoGt r0).1.reverse (spanNoGt r0).2 with
  | some (url, rest) => some (s.take (s.length - rest.length), url, rest)
  | none => none

/-- The literal `<picture`. -/
def pictureLit : Str := "<picture".toList

/-- The literal `<source`. -/
def sourceLit : Str := "<source".toList

/-- The literal `srcset="`. -/
def srcsetLit : Str := "srcset=".toList ++ [qc]

/-- The sub-pattern `<source[^>]+srcset="([^"]+)"`. -/
def matchSource (s : Str) : Option (Str × Str) :=
  (dropPrefixCI sourceLit s).bind fun r0 =>
    trySplit srcsetLit contQuoteOnly (spanNoGt r0).1.reverse (spanNoGt r0).2

/-- The lazy `[\s\S]*?` before `<source`: scan forward to the first
position where the source sub-pattern matches. -/
def findSourceF : Nat → Str → Option (Str × Str)
  | 0, _ => none
  | _ + 1, [] => none
  | n + 1, c :: cs =>
    match matchSource (c :: cs) with
    | some p => some p
    | none => findSourceF n cs

/-- One match of `/<picture[^>]*>[\s\S]*?<source[^>]+srcset="([^"]+)"/gi`. -/
def matchPicture (s : Str) : Option (Str × Str) :=
  (dropPrefixCI pictureLit s).bind fun r0 =>
    (skipAttrs r0).bind fun r1 => findSourceF r1.length r1

/-- Global scan of the `<img ... src>` pass of `extractImages`. -/
def scanImgSrcsF : Nat → Str → List Str
  | _, [] => []
  | 0, _ => []
  | n + 1, c :: cs =>
    match matchImgSrc (c :: cs) with
    | some (src, rest) => src :: scanImgSrcsF n rest
    | none => scanImgSrcsF n cs

def scanImgSrcs (s : Str) : List Str := scanImgSrcsF s.length s

/-- Global scan of the `<picture>` pass of `extractImages`. -/
def scanPicturesF : Nat → Str → List Str
  | _, [] => []
  | 0, _ => []
  | n + 1, c :: cs =>
    match matchPicture (c :: cs) with
    | some (src, rest) => src :: scanPicturesF n rest
    | none => scanPicturesF n cs

def scanPictures (s : Str) : List Str := scanPicturesF s.length s

/-- URL normalization of the `<img>` branch: protocol-relative gets
`https:`, site-relative gets the base URL. -/
def normalizeSrc (baseUrl : Str) (src : Str) : Str :=
  if "//".toList <+: src then "https:".toList ++ src
  else if ['/'] <+: src then baseUrl ++ src
  else src

/-- The keep-filter of the `<img>` branch: `http` scheme, not a data
URI, and no `pixel`, `icon` or `logo` substring. -/
def imgSrcKeep (src : Str) : Bool :=
  decide ("http".toList <+: src) && ! decide ("data:".toList <:+: src) &&
    (! decide ("pixel".toList <:+: src) && ! decide ("icon".toList <:+: src) &&
      ! decide ("logo".toList <:+: src))

/-- URL normalization of the `<picture>` branch: only protocol-relative
URLs are fixed, and only the `http` prefix is checked — no substring
denylist is applied. -/
def normalizePictureSrc (src : Str) : Str :=
  if "//".toList <+: src then "https:".toList ++ src else src

/-- index.js `extractImages` (lines 83-120): the filtered `<img>` pass
followed by the `<picture>` pass. -/
def extractImages (baseUrl : Str) (html : Str) : List Str :=
  (((scanImgSrcs html).map (normalizeSrc baseUrl)).filter imgSrcKeep) ++
    (((scanPictures html).map normalizePictureSrc).filter
      (fun src => decide ("http".toList <+: src)))

/-- The download loop of `downloadArticle` (index.js lines 211-225):
`for (let i = 0; i < Math.min(images.length, 5); i++)`, attempting one
download per iteration.  Fuel 5 bounds the loop counter. -/
def downloadLoopF (images : List Str) : Nat → Nat → List Str
  | 0, _ => []
  | fuel + 1, i =>
    if h : i < min images.length 5 then
      images.get ⟨i, Nat.lt_of_lt_of_le h (Nat.min_le_left _ _)⟩ ::
        downloadLoopF images fuel (i + 1)
    else []

/-- The URLs `downloadArticle` attempts to download, in order. -/
def downloadAttempts (images : List Str) : List Str := downloadLoopF images 5 0

theorem downloadLoopF_eq (images : List Str) :
    ∀ (fuel i : Nat), min images.length 5 - i ≤ fuel →
      downloadLoopF images fuel i =
        (images.drop i).take (min images.length 5 - i) := by
  intro fuel
  induction fuel with
  | zero =>
    intro i h
    rw [Nat.le_zero.mp h]
    rfl
  | succ fuel ih =>
    intro i h
    simp only [downloadLoopF]
    split
    · rename_i hlt
      have hi : i < images.length := Nat.lt_of_lt_of_le hlt (Nat.min_le_left _ _)
      rw [ih (i + 1) (by omega), List.drop_eq_getElem_cons hi,
        show min images.length 5 - i = (min images.length 5 - (i + 1)) + 1 by omega,
        List.take_succ_cons]
      simp
    · rename_i hge
      have : min images.length 5 - i = 0 := by omega
      rw [this]
      rfl

theorem downloadAttempts_take (images : List Str) :
    downloadAttempts images = images.take 5 := by
  unfold downloadAttempts
  rw [downloadLoopF_eq images 5 0 (by omega)]
  simp only [List.drop_zero, Nat.sub_zero]
  rcases Nat.le_total images.length 5 with hle | hge
  · rw [Nat.min_eq_left hle, List.take_length,
      List.take_of_length_le hle]
  · rw [Nat.min_eq_right hge]

/-! ## Claim C10: the five-image cap and the tracking filter -/

/-- A `<picture>` element whose srcset URL contains `logo`. -/
def pictureHtmlEx : Str :=
  "<picture><source x srcset=".toList ++ [qc] ++ "https://c/logo.png".toList ++
    [qc] ++ ">".toList

/-- C10 counterexample: the claim says the image extractor discards any
URL containing `pixel`, `icon` or `logo`; but the substring denylist is
applied only in the `<img>` branch — a `<picture>` srcset URL
containing `logo` is extracted and kept. -/
theorem c10_picture_filter_counterexample :
    "logo".toList <:+: "https://c/logo.png".toList ∧
    "https://c/logo.png".toList ∈
      extractImages "https://www.anthropic.com".toList pictureHtmlEx := by
  decide

/-- C10 (amended): `downloadArticle` attempts to download exactly the
first `min(length, 5)` extracted images (never more than five; images
beyond the fifth are never downloaded), and the pixel/icon/logo
substring denylist holds for every URL the `<img>` branch keeps — but
not for the `<picture>` branch (see the counterexample). -/
theorem c10_cap_and_img_filter (images : List Str) (baseUrl html : Str) :
    downloadAttempts images = images.take 5 ∧
    (downloadAttempts images).length ≤ 5 ∧
    (∀ u ∈ ((scanImgSrcs html).map (normalizeSrc baseUrl)).filter imgSrcKeep,
      ¬ "pixel".toList <:+: u ∧ ¬ "icon".toList <:+: u ∧
        ¬ "logo".toList <:+: u) := by
  refine ⟨downloadAttempts_take images, ?_, ?_⟩
  · rw [downloadAttempts_take images, List.length_take]
    omega
  · intro u hu
    have hk := (List.mem_filter.mp hu).2
    simp only [imgSrcKeep, Bool.and_eq_true, Bool.not_eq_true',
      decide_eq_false_iff_not] at hk
    exact ⟨hk.2.1.1, hk.2.1.2, hk.2.2⟩

/-- An article page with one kept image and seven extracted images. -/
def imgHtmlEx : Str :=
  "<img x src=".toList ++ [qc] ++ "https://a/b.png".toList ++ [qc] ++ ">".toList

/-- C10 witness: the amended theorem at concrete inputs — seven images
are cut to five, and the kept `<img>` URL of the example page carries
none of the denylisted substrings. -/
theorem c10_cap_and_img_filter_witness :
    downloadAttempts
      ["a1".toList, "a2".toList, "a3".toList, "a4".toList, "a5".toList,
       "a6".toList, "a7".toList] =
      ["a1".toList, "a2".toList, "a3".toList, "a4".toList, "a5".toList,
       "a6".toList, "a7".toList].take 5 ∧
    ¬ "logo".toList <:+: "https://a/b.png".toList :=
  ⟨(c10_cap_and_img_filter
      ["a1".toList, "a2".toList, "a3".toList, "a4".toList, "a5".toList,
       "a6".toList, "a7".toList] "https://www.anthropic.com".toList imgHtmlEx).1,
   ((c10_cap_and_img_filter
      ["a1".toList, "a2".toList, "a3".toList, "a4".toList, "a5".toList,
       "a6".toList, "a7".toList] "https://www.anthropic.com".toList imgHtmlEx).2.2
      "https://a/b.png".toList (by decide)).2.2⟩

/-! ## Claim C5: image fetch deduplication -/

theorem countP_eq_one_of_nodup {α : Type} {l : List α} {u : α} [DecidableEq α]
    (hnd : l.Nodup) (hm : u ∈ l) :
    l.countP (fun v => decide (v = u)) = 1 := by
  induction l with
  | nil => simp at hm
  | cons a rest ih =>
    have hnd2 := List.nodup_cons.mp hnd
    rw [List.countP_cons]
    rcases List.mem_cons.mp hm with he | hm2
    · subst he
      rw [List.countP_eq_zero.mpr (fun v hv => by simp; exact fun he2 => hnd2.1 (he2 ▸ hv))]
      simp
    · have hne : a ≠ u := fun he => hnd2.1 (he ▸ hm2)
      rw [ih hnd2.2 hm2]
      simp [hne]

/-- compile-epub.js `main` (lines 186-204): all image URLs of the
selected articles are inserted into one `Set`, then `downloadImage` is
invoked once per set element — the invocation list is the
first-occurrence deduplication of the whole batch. -/
def epubImageCalls (articles : List CArticle) : List Str :=
  dedupFirst ((articles.map CArticle.images).flatten)

/-- index.js: `downloadArticle` runs per article with no set anywhere —
one `downloadFile` invocation per retained occurrence among the first
five images of each article. -/
def indexImageCalls (baseUrl : Str) (articlesHtml : List Str) : List Str :=
  (articlesHtml.map (fun html => downloadAttempts (extractImages baseUrl html))).flatten

/-- The same image twice in one article page. -/
def dupImgHtmlEx : Str := imgHtmlEx ++ imgHtmlEx

/-- C5 counterexample: the claim says each distinct image URL is
fetched at most once across the batch; in the index.js variant (cited
by the claim) an image referenced twice is downloaded twice — the
invocation list contains the URL with multiplicity two. -/
theorem c5_index_no_dedup_counterexample :
    ("https://a/b.png".toList ∈
        (extractImages "https://www.anthropic.com".toList dupImgHtmlEx)) ∧
    (indexImageCalls "https://www.anthropic.com".toList [dupImgHtmlEx]).countP
      (fun v => decide (v = "https://a/b.png".toList)) = 2 := by
  decide

/-- C5 (amended): the compile-epub.js batch deduplicates by URL — the
invocation list is duplicate-free and every referenced URL is invoked
exactly once, its result reused through the `downloadedImages` map; the
index.js variant has no such dedup and downloads per occurrence (up to
five per article), see the counterexample. -/
theorem c5_epub_batch_dedup (articles : List CArticle) :
    (epubImageCalls articles).Nodup ∧
    (∀ u, u ∈ epubImageCalls articles ↔
      u ∈ (articles.map CArticle.images).flatten) ∧
    (∀ u ∈ (articles.map CArticle.images).flatten,
      (epubImageCalls articles).countP (fun v => decide (v = u)) = 1) := by
  have hnd : (epubImageCalls articles).Nodup :=
    foldl_addToSet_nodup _ _ (by simp)
  have hmem : ∀ u, u ∈ epubImageCalls articles ↔
      u ∈ (articles.map CArticle.images).flatten := by
    intro u
    unfold epubImageCalls dedupFirst
    rw [foldl_addToSet_mem]
    simp
  exact ⟨hnd, hmem, fun u hu => countP_eq_one_of_nodup hnd ((hmem u).mpr hu)⟩

/-- Two articles sharing an image URL. -/
def epubArticlesEx : List CArticle :=
  [⟨"T1".toList, [], "News".toList, [],
    ["https://i/1.png".toList, "https://i/2.png".toList], "f1".toList⟩,
   ⟨"T2".toList, [], "News".toList, [], ["https://i/1.png".toList], "f2".toList⟩]

/-- C5 witness: the amended theorem at the concrete batch — the shared
URL is invoked exactly once. -/
theorem c5_epub_batch_dedup_witness :
    (epubImageCalls epubArticlesEx).countP
      (fun v => decide (v = "https://i/1.png".toList)) = 1 :=
  (c5_epub_batch_dedup epubArticlesEx).2.2 "https://i/1.png".toList (by decide)

/-! ## Claim C3 machinery: image substitution -/

/-- JavaScript `String.replace` with a (regex-escaped, hence literal)
pattern and no `g` flag: replace the first occurrence only; the input
is returned unchanged when the pattern does not occur. -/
def replaceFirst (pat rep : Str) : Str → Str
  | [] => if pat = [] then rep else []
  | c :: cs =>
    if pat <+: (c :: cs) then rep ++ (c :: cs).drop pat.length
    else c :: replaceFirst pat rep cs

/-- The substitution loop of index.js `downloadArticle` (lines
234-238): for each SUCCESSFULLY downloaded image (pairs of original
URL and local filename), replace the first occurrence of the original
URL in the content; failed downloads are not in the list and their
references are not touched. -/
def replaceLoopIndex (content : Str) (downloaded : List (Str × Str)) : Str :=
  downloaded.foldl (fun c d => replaceFirst d.1 d.2 c) content

/-- The inline style of the tag `processImages` inserts. -/
def styleVal : Str :=
  "max-width:100%; height:auto; display:block; margin:15px auto;".toList

/-- The replacement tag
`<img src="${base64}" style="..." alt=""/>` of `processImages`. -/
def imgTagFor (b : Str) : Str :=
  "<img src=".toList ++ [qc] ++ b ++ [qc] ++ " style=".toList ++ [qc] ++
    styleVal ++ [qc] ++ " alt=".toList ++ [qc] ++ [qc] ++ "/>".toList

/-- `[...content.matchAll(imgRegex)]` for the compile-epub.js image
regex: all (whole match, captured src) pairs, non-overlapping, left to
right. -/
def allImgMatchesF : Nat → Str → List (Str × Str)
  | _, [] => []
  | 0, _ => []
  | n + 1, c :: cs =>
    match matchImgTag (c :: cs) with
    | some (whole, url, rest) => (whole, url) :: allImgMatchesF n rest
    | none => allImgMatchesF n cs

def allImgMatches (s : Str) : List (Str × Str) := allImgMatchesF s.length s

/-- compile-epub.js `processImages` (lines 132-150): compute all
matches of the image regex on the original content, then for each
match replace its first occurrence in the evolving result — by the
embedded tag when the source was downloaded, by nothing when it was
not. -/
def processImages (content : Str) (downloadedImages : Str → Option Str) : Str :=
  (allImgMatches content).foldl
    (fun res m =>
      match downloadedImages m.2 with
      | some b => replaceFirst m.1 (imgTagFor b) res
      | none => replaceFirst m.1 [] res) content

/-- An article-body segment: markup-free text or a whole `<img>` tag
`<img{pre}src="{url}"{post}>`. -/
inductive ISeg
  | text (s : Str)
  | img (pre url post : Str)

def ISeg.render : ISeg → Str
  | .text s => s
  | .img pre url post => imgLit ++ pre ++ srcLit ++ url ++ [qc] ++ post ++ ['>']

def irenderAll (l : List ISeg) : Str := (l.map ISeg.render).flatten

theorem irenderAll_cons (g : ISeg) (l : List ISeg) :
    irenderAll (g :: l) = g.render ++ irenderAll l := by
  simp [irenderAll]

/-- Well-formedness of an image-tag segment's fields. -/
def imgFieldsOk (pre url post : Str) : Prop :=
  pre ≠ [] ∧ '<' ∉ pre ∧ '>' ∉ pre ∧ qc ∉ pre ∧
    url ≠ [] ∧ '<' ∉ url ∧ '>' ∉ url ∧ qc ∉ url ∧ '=' ∉ url ∧
    '<' ∉ post ∧ '>' ∉ post ∧ qc ∉ post

instance (pre url post : Str) : Decidable (imgFieldsOk pre url post) :=
  inferInstanceAs (Decidable (_ ∧ _ ∧ _ ∧ _ ∧ _ ∧ _ ∧ _ ∧ _ ∧ _ ∧ _ ∧ _ ∧ _))

/-- Well-formedness of a body segment. -/
def isegOk : ISeg → Prop
  | .text s => '<' ∉ s
  | .img pre url post => imgFieldsOk pre url post

instance (g : ISeg) : Decidable (isegOk g) := by
  cases g with
  | text s => exact inferInstanceAs (Decidable ('<' ∉ s))
  | img pre url post => exact inferInstanceAs (Decidable (imgFieldsOk pre url post))

/-- The image URLs of the body, in order. -/
def imgUrls : List ISeg → List Str
  | [] => []
  | .img _ url _ :: rest => url :: imgUrls rest
  | .text _ :: rest => imgUrls rest

/-- The (whole tag, src) matches the regex finds on the rendering. -/
def imgMatches : List ISeg → List (Str × Str)
  | [] => []
  | .img pre url post :: rest =>
    (ISeg.render (.img pre url post), url) :: imgMatches rest
  | .text _ :: rest => imgMatches rest

/-- What one segment becomes in the processed body. -/
def procSeg (dl : Str → Option Str) : ISeg → Str
  | .text s => s
  | .img _ url _ =>
    match dl url with
    | some b => imgTagFor b
    | none => []

/-- The processed body: text kept, downloaded images replaced by the
embedded tag, failed images removed. -/
def iprocessed (dl : Str → Option Str) (l : List ISeg) : Str :=
  (l.map (procSeg dl)).flatten

/-- C3 counterexample: the claim says a failed download's reference is
absent from the assembled body.  In the index.js variant (cited by the
claim) only successful downloads are substituted: with every download
failed the substitution loop leaves the body unchanged, and the body
still contains an `<img>` tag whose src is the failed remote URL (the
code's own image scanner still finds it). -/
theorem c3_failed_ref_counterexample :
    replaceLoopIndex imgHtmlEx [] = imgHtmlEx ∧
    "https://a/b.png".toList ∈ scanImgSrcs (replaceLoopIndex imgHtmlEx []) := by
  refine ⟨rfl, ?_⟩
  decide

theorem contQuoteAttrsGt_length {s u r : Str}
    (h : contQuoteAttrsGt s = some (u, r)) : r.length < s.length := by
  simp only [contQuoteAttrsGt] at h
  split at h
  · exact absurd h (by simp)
  · rcases h2 : quoteClose (spanNoQuote s).1 (spanNoQuote s).2 with _ | ⟨url, rest2⟩
    · rw [h2] at h; exact absurd h (by simp)
    · rw [h2] at h
      have h' : Option.map (fun r => (url, r)) (skipAttrs rest2) = some (u, r) := h
      obtain ⟨hu, hs2⟩ := quoteClose_some h2
      rcases h3 : skipAttrs rest2 with _ | r2
      · rw [h3] at h'; exact absurd h' (by simp)
      · rw [h3] at h'
        simp only [Option.map_some'] at h'
        cases h'
        have hlen := skipAttrs_length h3
        have hdec := spanNoQuote_decomp s
        rw [hs2] at hdec
        rw [hdec]
        simp only [List.length_append, List.length_cons]
        omega

theorem trySplit_length {lit : Str} {cont : Str → Option (Str × Str)}
    (hcont : ∀ s u r, cont s = some (u, r) → r.length < s.length) :
    ∀ {revA tail u rest : Str},
      trySplit lit cont revA tail = some (u, rest) →
      rest.length < revA.length + tail.length := by
  intro revA
  induction revA with
  | nil => intro tail u rest h; exact absurd h (by simp [trySplit])
  | cons c revA ih =>
    intro tail u rest h
    simp only [trySplit] at h
    rcases h1 : dropPrefixCI lit tail with _ | after
    · rw [h1] at h
      have := ih h
      simp only [List.length_cons] at this ⊢
      omega
    · rw [h1] at h
      have h' : (match cont after with
          | some p => some p
          | none => trySplit lit cont revA (c :: tail)) = some (u, rest) := h
      rcases h2 : cont after with _ | ⟨pu, pr⟩
      · rw [h2] at h'
        have := ih h'
        simp only [List.length_cons] at this ⊢
        omega
      · rw [h2] at h'
        cases h'
        have hl1 := dropPrefixCI_length h1
        have hl2 := hcont _ _ _ h2
        simp only [List.length_cons]
        omega

theorem matchImgTag_length {s w u rest : Str}
    (h : matchImgTag s = some (w, u, rest)) :
    rest.length < s.length ∧ w = s.take (s.length - rest.length) := by
  simp only [matchImgTag] at h
  rcases h0 : (dropPrefixCI imgLit s).bind (fun r0 =>
      trySplit srcLit contQuoteAttrsGt (spanNoGt r0).1.reverse (spanNoGt r0).2)
    with _ | ⟨url, rest2⟩
  · rw [h0] at h; exact absurd h (by simp)
  · rw [h0] at h
    cases h
    refine ⟨?_, rfl⟩
    rcases h1 : dropPrefixCI imgLit s with _ | r0
    · rw [h1] at h0; exact absurd h0 (by simp)
    · rw [h1, Option.some_bind] at h0
      have hts := trySplit_length (fun s u r hh => contQuoteAttrsGt_length hh) h0
      have hdec := spanNoGt_decomp r0
      have hl1 := dropPrefixCI_length h1
      have hlit : imgLit.length = 4 := by decide
      have hr0 : (spanNoGt r0).1.length + (spanNoGt r0).2.length = r0.length := by
        conv_rhs => rw [hdec]
        simp [List.length_append]
      simp only [List.length_reverse] at hts
      omega

theorem allImgMatchesF_congr :
    ∀ (n k : Nat) (s : Str), s.length ≤ n → s.length ≤ k →
      allImgMatchesF n s = allImgMatchesF k s := by
  intro n
  induction n with
  | zero =>
    intro k s hn _
    have : s = [] := List.length_eq_zero.mp (Nat.le_zero.mp hn)
    subst this
    cases k <;> rfl
  | succ n ih =>
    intro k s hn hk
    cases s with
    | nil => cases k <;> rfl
    | cons c cs =>
      cases k with
      | zero => simp at hk
      | succ k =>
        simp only [allImgMatchesF]
        rcases h1 : matchImgTag (c :: cs) with _ | ⟨w, url, rest⟩
        · simp only [List.length_cons] at hn hk
          exact ih k cs (by omega) (by omega)
        · have hl := (matchImgTag_length h1).1
          simp only [List.length_cons] at hn hk hl
          exact congrArg ((w, url) :: ·) (ih k rest (by omega) (by omega))

theorem allImgMatches_pos {c : Char} {cs w url rest : Str}
    (h : matchImgTag (c :: cs) = some (w, url, rest)) :
    allImgMatches (c :: cs) = (w, url) :: allImgMatches rest := by
  have hl := (matchImgTag_length h).1
  simp only [List.length_cons] at hl
  simp only [allImgMatches, List.length_cons, allImgMatchesF, h]
  exact congrArg ((w, url) :: ·)
    (allImgMatchesF_congr cs.length rest.length rest (by omega) (by omega))

theorem allImgMatches_neg {c : Char} {cs : Str} (h : matchImgTag (c :: cs) = none) :
    allImgMatches (c :: cs) = allImgMatches cs := by
  simp only [allImgMatches, List.length_cons, allImgMatchesF, h]

theorem matchImgTag_head {c : Char} {cs : Str} (hc : c ≠ '<') :
    matchImgTag (c :: cs) = none := by
  have hci : ciEq '<' c = false := by
    unfold ciEq
    rw [if_neg hc, if_neg]
    intro hcon
    exact absurd hcon.1 (by decide)
  have e : imgLit = '<' :: "img".toList := by decide
  have hd : dropPrefixCI imgLit (c :: cs) = none := by
    rw [e]
    simp [dropPrefixCI, hci]
  simp [matchImgTag, hd]

/-- A block inside which no image-tag match starts contributes no
matches. -/
theorem allImgMatches_through {x r : Str}
    (h : ScanSafe (fun s => (matchImgTag s).isSome) x r) :
    allImgMatches (x ++ r) = allImgMatches r := by
  induction x with
  | nil => simp
  | cons c xs ih =>
    have hno : matchImgTag (c :: (xs ++ r)) = none := by
      rcases h1 : matchImgTag (c :: (xs ++ r)) with _ | p
      · rfl
      · exact absurd (by simp [h1]) (h [] (c :: xs) (by simp) (by simp))
    simp only [List.cons_append]
    rw [allImgMatches_neg hno, ih (scanSafe_of_cons h)]

/-- Markup-free text is safe for the image-tag scan. -/
theorem scanSafe_img_text {x r : Str} (h : '<' ∉ x) :
    ScanSafe (fun s => (matchImgTag s).isSome) x r :=
  scanSafe_heads fun c hc tl => by
    simp [matchImgTag_head (fun e => h (e ▸ hc))]

/-- A pattern character that CI-matches against a non-letter input is
that input itself. -/
theorem ciEq_nonalpha_pat {p c : Char} (hp : isLowerAlpha p = false)
    (h : ciEq p c = true) : c = p := by
  unfold ciEq at h
  split at h
  · assumption
  · split at h
    · rename_i hcon
      rw [hp] at hcon
      exact absurd hcon.1 (by simp)
    · exact absurd h (by simp)

/-- A pattern character that CI-matches a double quote is the double
quote (the quote is not a letter, so case folding cannot produce it). -/
theorem ciEq_input_qc {a : Char} (h : ciEq a qc = true) : a = qc := by
  unfold ciEq at h
  split at h
  · rename_i hq; exact hq.symm
  · split at h
    · rename_i hcon
      obtain ⟨hla, hnat⟩ := hcon
      have hb := isLowerAlpha_bounds hla
      have h34 : qc.toNat = 34 := by decide
      omega
    · exact absurd h (by simp)

theorem dropPrefixCI_head_false {p0 c : Char} {ps cs : Str} (h : ciEq p0 c = false) :
    dropPrefixCI (p0 :: ps) (c :: cs) = none := by
  simp [dropPrefixCI, h]

/-- A pattern none of whose characters CI-matches `>`, and which
contains a double quote, cannot drop from `v ++ '>' :: r` when `v` is
quote-free: the match would have to cross the `>` barrier to reach its
quote. -/
theorem dropPrefixCI_gt_barrier {r : Str} :
    ∀ {v p : Str}, (∀ pc ∈ p, ciEq pc '>' = false) → qc ∈ p → qc ∉ v →
      dropPrefixCI p (v ++ '>' :: r) = none := by
  intro v
  induction v with
  | nil =>
    intro p hgt hq hv
    cases p with
    | nil => simp at hq
    | cons pc ps =>
      have hpc := hgt pc (List.mem_cons_self _ _)
      simp [dropPrefixCI, hpc]
  | cons c vs ih =>
    intro p hgt hq hv
    cases p with
    | nil => simp at hq
    | cons pc ps =>
      by_cases hci : ciEq pc c = true
      · rw [List.cons_append]
        simp only [dropPrefixCI, if_pos hci]
        have hqps : qc ∈ ps := by
          rcases List.mem_cons.mp hq with h1 | h2
          · subst h1
            apply absurd _ hv
            rw [← ciEq_nonalpha_pat (by decide) hci]
            exact List.mem_cons_self _ _
          · exact h2
        exact ih (fun d hd => hgt d (List.mem_cons_of_mem _ hd)) hqps
          (fun hm => hv (List.mem_cons_of_mem _ hm))
      · rw [List.cons_append]
        simp [dropPrefixCI, hci]

/-- If a pattern `w"` (quote-free `w`) CI-drops from `v"...` with
quote-free `v`, the pattern's quote aligned with the explicit input
quote, so `w` CI-matched `v` character by character. -/
theorem ciAlign {r2 : Str} :
    ∀ {w v x : Str}, qc ∉ w → qc ∉ v →
      dropPrefixCI (w ++ [qc]) (v ++ qc :: r2) = some x →
      List.Forall₂ (fun pc c => ciEq pc c = true) w v := by
  intro w
  induction w with
  | nil =>
    intro v x hw hv h
    cases v with
    | nil => exact List.Forall₂.nil
    | cons c vs =>
      exfalso
      simp only [List.nil_append, List.cons_append, dropPrefixCI] at h
      split at h
      · rename_i hci
        have hc : c = qc := ciEq_nonalpha_pat (by decide) hci
        subst hc
        exact hv (List.mem_cons_self _ _)
      · exact absurd h (by simp)
  | cons a ws ih =>
    intro v x hw hv h
    cases v with
    | nil =>
      exfalso
      simp only [List.cons_append, List.nil_append, dropPrefixCI] at h
      split at h
      · rename_i hci
        have ha : a = qc := ciEq_input_qc hci
        subst ha
        exact hw (List.mem_cons_self _ _)
      · exact absurd h (by simp)
    | cons c vs =>
      simp only [List.cons_append, dropPrefixCI] at h
      split at h
      · rename_i hci
        exact List.Forall₂.cons hci (ih (fun m => hw (List.mem_cons_of_mem _ m))
          (fun m => hv (List.mem_cons_of_mem _ m)) h)
      · exact absurd h (by simp)

/-- Transfer membership across a CI alignment for a character that only
CI-matches itself. -/
theorem forall2_ciEq_mem {w v : Str}
    (h : List.Forall₂ (fun pc c => ciEq pc c = true) w v)
    {p0 : Char} (hp : p0 ∈ w) (hchar : ∀ c, ciEq p0 c = true → c = p0) :
    p0 ∈ v := by
  induction h with
  | nil => simp at hp
  | @cons a b l1 l2 hab htl ih =>
    rcases List.mem_cons.mp hp with h1 | h2
    · subst h1
      rw [← hchar b hab]
      exact List.mem_cons_self _ _
    · exact List.mem_cons_of_mem _ (ih h2)

/-- If `src="` CI-matches at a quote-free run `v` followed by an
explicit quote, then `v` contains `=` and has length 4 (the pattern's
quote aligns with the explicit one). -/
theorem srcLit_fail_quote {v r2 x : Str} (hv : qc ∉ v)
    (h : dropPrefixCI srcLit (v ++ qc :: r2) = some x) :
    '=' ∈ v ∧ v.length = 4 := by
  have h2 : dropPrefixCI ("src=".toList ++ [qc]) (v ++ qc :: r2) = some x := h
  have hal := ciAlign (by decide) hv h2
  refine ⟨forall2_ciEq_mem hal (by decide)
    (fun c hc => ciEq_nonalpha_pat (by decide) hc), ?_⟩
  have := List.Forall₂.length_eq hal
  simpa using this.symm

/-- `src="` cannot match starting inside a quote-free stretch followed
by the tag-closing `>`. -/
theorem srcLit_fail_gt {v r : Str} (hv : qc ∉ v) :
    dropPrefixCI srcLit (v ++ '>' :: r) = none :=
  dropPrefixCI_gt_barrier (by decide) (by decide) hv

/-- No split point strictly inside the run `w` admits the literal: the
backtracking search walks past all of `w`. -/
def SplitFail (lit w tail : Str) : Prop :=
  ∀ w1 w2, w = w1 ++ w2 → w1 ≠ [] → dropPrefixCI lit (w2 ++ tail) = none

theorem splitFail_nil {lit tail : Str} : SplitFail lit [] tail := by
  intro w1 w2 hw hne
  exact absurd (List.append_eq_nil.mp hw.symm).1 hne

theorem splitFail_cons {lit : Str} {c : Char} {xs tail : Str}
    (h1 : dropPrefixCI lit (xs ++ tail) = none)
    (h2 : SplitFail lit xs tail) :
    SplitFail lit (c :: xs) tail := by
  intro w1 w2 hw hne
  cases w1 with
  | nil => exact absurd rfl hne
  | cons d w1' =>
    simp only [List.cons_append, List.cons.injEq] at hw
    cases w1' with
    | nil =>
      have : w2 = xs := by simpa using hw.2.symm
      rw [this]
      exact h1
    | cons e w1'' => exact h2 (e :: w1'') w2 hw.2 (by simp)

theorem splitFail_append {lit x y tail : Str}
    (hx : SplitFail lit x (y ++ tail))
    (hy : ∀ y1 y2, y = y1 ++ y2 → dropPrefixCI lit (y2 ++ tail) = none) :
    SplitFail lit (x ++ y) tail := by
  intro w1 w2 hw hne
  rcases List.append_eq_append_iff.mp hw with ⟨a, ha1, ha2⟩ | ⟨a, ha1, ha2⟩
  · exact hy a w2 ha2
  · have := hx w1 a ha1 hne
    rw [ha2, List.append_assoc]
    exact this

theorem splitFail_five {lit : Str} {a b c d e : Char} {tail : Str}
    (heq : lit = a :: b :: c :: d :: e :: [])
    (h0 : dropPrefixCI lit tail = none)
    (h1 : dropPrefixCI lit (e :: tail) = none)
    (h2 : dropPrefixCI lit (d :: e :: tail) = none)
    (h3 : dropPrefixCI lit (c :: d :: e :: tail) = none)
    (h4 : dropPrefixCI lit (b :: c :: d :: e :: tail) = none) :
    SplitFail lit lit tail := by
  subst heq
  exact splitFail_cons (by simpa using h4) (splitFail_cons (by simpa using h3)
    (splitFail_cons (by simpa using h2) (splitFail_cons (by simpa using h1)
      (splitFail_cons (by simpa using h0) splitFail_nil))))

/-- The backtracking split search skips a stretch of the run at whose
interior split points the literal fails. -/
theorem trySplit_skip {lit : Str} {cont : Str → Option (Str × Str)} :
    ∀ (rw : Str) {revA tail : Str}, SplitFail lit rw.reverse tail →
      trySplit lit cont (rw ++ revA) tail =
        trySplit lit cont revA (rw.reverse ++ tail) := by
  intro rw
  induction rw with
  | nil => intro revA tail h; simp
  | cons c rws ih =>
    intro revA tail h
    have hd : dropPrefixCI lit tail = none := by
      have := h (c :: rws).reverse [] (by simp) (by simp)
      simpa using this
    simp only [List.cons_append, trySplit, hd, List.append_eq]
    have h2 : SplitFail lit rws.reverse (c :: tail) := by
      intro w1 w2 hw hne
      have := h w1 (w2 ++ [c]) (by rw [List.reverse_cons, hw, List.append_assoc]) hne
      simpa [List.append_assoc] using this
    rw [ih h2]
    simp [List.reverse_cons, List.append_assoc]

/-- The whole relinquishable run `src="url"post` of a well-formed tag
admits no strictly interior split: the greedy backtracking search
settles exactly at the true `src="` occurrence. -/
theorem splitFail_run {url post rest : Str} (huq : qc ∉ url) (hueq : '=' ∉ url)
    (hpq : qc ∉ post) :
    SplitFail srcLit (srcLit ++ (url ++ qc :: post)) ('>' :: rest) := by
  have ffailU : ∀ (v : Str), qc ∉ v → '=' ∉ v → ∀ r2,
      dropPrefixCI srcLit (v ++ qc :: r2) = none := by
    intro v hv hveq r2
    rcases hdp : dropPrefixCI srcLit (v ++ qc :: r2) with _ | x
    · rfl
    · exact absurd (srcLit_fail_quote hv hdp).1 hveq
  have ffailL : ∀ (v : Str), qc ∉ v → v.length ≠ 4 → ∀ r2,
      dropPrefixCI srcLit (v ++ qc :: r2) = none := by
    intro v hv hlen r2
    rcases hdp : dropPrefixCI srcLit (v ++ qc :: r2) with _ | x
    · rfl
    · exact absurd (srcLit_fail_quote hv hdp).2 hlen
  have hqch : ∀ r2 : Str, dropPrefixCI srcLit (qc :: r2) = none := by
    intro r2
    have e : srcLit = 's' :: ('r' :: ('c' :: ('=' :: [qc]))) := by decide
    rw [e]
    exact dropPrefixCI_head_false (by decide)
  have e5 : srcLit = 's' :: ('r' :: ('c' :: ('=' :: [qc]))) := by decide
  apply splitFail_append
  · refine splitFail_five e5 ?_ ?_ ?_ ?_ ?_
    · rw [List.append_assoc, List.cons_append]
      exact ffailU url huq hueq _
    · exact hqch _
    · exact ffailL ['='] (by decide) (by decide) _
    · exact ffailL ['c', '='] (by decide) (by decide) _
    · exact ffailL ['r', 'c', '='] (by decide) (by decide) _
  · intro y1 y2 hy
    rcases List.append_eq_append_iff.mp hy with ⟨a, ha1, ha2⟩ | ⟨a, ha1, ha2⟩
    · cases a with
      | nil =>
        have : y2 = qc :: post := by simpa using ha2.symm
        rw [this]
        exact hqch _
      | cons q a' =>
        simp only [List.cons_append, List.cons.injEq] at ha2
        have hpost : post = a' ++ y2 := ha2.2
        have hq2 : qc ∉ y2 := fun m => hpq (hpost ▸ List.mem_append.mpr (Or.inr m))
        exact srcLit_fail_gt hq2
    · have hq2 : qc ∉ a := fun m => huq (ha1 ▸ List.mem_append.mpr (Or.inr m))
      have he2 : '=' ∉ a := fun m => hueq (ha1 ▸ List.mem_append.mpr (Or.inr m))
      rw [ha2, List.append_assoc, List.cons_append]
      exact ffailU a hq2 he2 _

theorem contQuoteAttrsGt_self {url post rest : Str} (hu : url ≠ []) (huq : qc ∉ url)
    (hpg : '>' ∉ post) :
    contQuoteAttrsGt (url ++ qc :: (post ++ '>' :: rest)) = some (url, rest) := by
  simp only [contQuoteAttrsGt, spanNoQuote_append huq]
  rw [if_neg hu]
  simp [quoteClose, skipAttrs_self hpg]

theorem trySplit_cons_pos {lit : Str} {cont : Str → Option (Str × Str)}
    {c : Char} {revA tail after : Str} {p : Str × Str}
    (h1 : dropPrefixCI lit tail = some after) (h2 : cont after = some p) :
    trySplit lit cont (c :: revA) tail = some p := by
  simp [trySplit, h1, h2]

/-- The backtracking search on the rendered run of a well-formed tag
yields the tag's source and the input after the closing `>`. -/
theorem trySplit_img_self {pre url post rest : Str}
    (hpre : pre ≠ []) (hu : url ≠ []) (huq : qc ∉ url) (hueq : '=' ∉ url)
    (hpq : qc ∉ post) (hpg : '>' ∉ post) :
    trySplit srcLit contQuoteAttrsGt
      (pre ++ (srcLit ++ (url ++ qc :: post))).reverse ('>' :: rest) =
      some (url, rest) := by
  rw [List.reverse_append]
  have hsf : SplitFail srcLit ((srcLit ++ (url ++ qc :: post)).reverse).reverse
      ('>' :: rest) := by
    rw [List.reverse_reverse]
    exact splitFail_run huq hueq hpq
  rw [trySplit_skip _ hsf, List.reverse_reverse]
  rcases hpr : pre.reverse with _ | ⟨c, pr⟩
  · exact absurd (by simpa using hpr) hpre
  have h1 : dropPrefixCI srcLit ((srcLit ++ (url ++ qc :: post)) ++ '>' :: rest) =
      some ((url ++ qc :: post) ++ '>' :: rest) := by
    rw [List.append_assoc]
    exact dropPrefixCI_self _ _
  have h2 : contQuoteAttrsGt ((url ++ qc :: post) ++ '>' :: rest) =
      some (url, rest) := by
    have e3 : (url ++ qc :: post) ++ '>' :: rest =
        url ++ qc :: (post ++ '>' :: rest) := by
      simp [List.append_assoc]
    rw [e3]
    exact contQuoteAttrsGt_self hu huq hpg
  exact trySplit_cons_pos h1 h2

/-- One regex match at the head of a well-formed rendered image tag:
the whole tag, its source, and the rest of the input. -/
theorem matchImgTag_self {pre url post rest : Str}
    (hok : imgFieldsOk pre url post) :
    matchImgTag (ISeg.render (.img pre url post) ++ rest) =
      some (ISeg.render (.img pre url post), url, rest) := by
  obtain ⟨hpre, hplt, hpgt, hpq, hu, hult, hugt, huq, hueq, hpolt, hpogt, hpoq⟩ := hok
  have e1 : ISeg.render (.img pre url post) ++ rest =
      imgLit ++ ((pre ++ (srcLit ++ (url ++ qc :: post))) ++ '>' :: rest) := by
    simp [ISeg.render, List.append_assoc]
  have hgR : '>' ∉ pre ++ (srcLit ++ (url ++ qc :: post)) := by
    intro hm
    rcases List.mem_append.mp hm with h | h
    · exact hpgt h
    rcases List.mem_append.mp h with h | h
    · exact absurd h (by decide)
    rcases List.mem_append.mp h with h | h
    · exact hugt h
    rcases List.mem_cons.mp h with h | h
    · exact absurd h (by decide)
    · exact hpogt h
  rw [e1]
  simp only [matchImgTag]
  rw [dropPrefixCI_self, Option.some_bind, spanNoGt_append hgR]
  rw [trySplit_img_self hpre hu huq hueq hpoq hpogt]
  rw [← e1]
  have e2 : (ISeg.render (.img pre url post) ++ rest).length - rest.length =
      (ISeg.render (.img pre url post)).length := by
    simp [List.length_append]
  show some ((ISeg.render (.img pre url post) ++ rest).take
      ((ISeg.render (.img pre url post) ++ rest).length - rest.length), url, rest) =
    some (ISeg.render (.img pre url post), url, rest)
  rw [e2, List.take_left]

theorem allImgMatches_pos' {s w url rest : Str}
    (h : matchImgTag s = some (w, url, rest)) :
    allImgMatches s = (w, url) :: allImgMatches rest := by
  cases s with
  | nil => exact absurd h (by simp [matchImgTag, imgLit, dropPrefixCI])
  | cons c cs => exact allImgMatches_pos h

/-- On a well-formed body the regex finds exactly the rendered image
tags, in order, capturing their `src` values. -/
theorem allImgMatches_irender {segs : List ISeg} (h : ∀ g ∈ segs, isegOk g) :
    allImgMatches (irenderAll segs) = imgMatches segs := by
  induction segs with
  | nil => rfl
  | cons g rest ih =>
    rw [irenderAll_cons]
    cases g with
    | text s =>
      have hts : '<' ∉ s := h _ (List.mem_cons_self _ _)
      rw [show ISeg.render (.text s) = s from rfl]
      rw [allImgMatches_through (scanSafe_img_text hts)]
      show allImgMatches (irenderAll rest) = imgMatches rest
      exact ih (fun g hg => h g (List.mem_cons_of_mem _ hg))
    | img pre url post =>
      have hok : imgFieldsOk pre url post := h _ (List.mem_cons_self _ _)
      rw [allImgMatches_pos' (matchImgTag_self hok)]
      exact congrArg ((ISeg.render (.img pre url post), url) :: ·)
        (ih (fun g hg => h g (List.mem_cons_of_mem _ hg)))

/-- A well-formed rendered image tag. -/
def GoodWhole (w : Str) : Prop :=
  ∃ pre url post, imgFieldsOk pre url post ∧ w = ISeg.render (.img pre url post)

/-- No occurrence of any well-formed image tag starts inside `x`
(whatever follows `x`). -/
def NoWholeStart (x : Str) : Prop :=
  ∀ u v, x = u ++ v → v ≠ [] → ∀ w tail, GoodWhole w → ¬ w <+: (v ++ tail)

theorem noWholeStart_nil : NoWholeStart [] := by
  intro u v h hv
  exact absurd (List.append_eq_nil.mp h.symm).2 hv

theorem noWholeStart_append {x y : Str} (hx : NoWholeStart x) (hy : NoWholeStart y) :
    NoWholeStart (x ++ y) := by
  intro u v h hv w tail hw
  rcases List.append_eq_append_iff.mp h with ⟨a, ha1, ha2⟩ | ⟨a, ha1, ha2⟩
  · exact hy a v ha2 hv w tail hw
  · cases a with
    | nil =>
      have : v = y := by simpa using ha2
      subst this
      exact hy [] v rfl hv w tail hw
    | cons d a' =>
      have := hx u (d :: a') ha1 (by simp) w (y ++ tail) hw
      rw [ha2, List.append_assoc]
      exact this

theorem render_img_head (pre url post : Str) :
    ISeg.render (.img pre url post) =
      '<' :: ("img".toList ++ (pre ++ (srcLit ++ (url ++ qc :: (post ++ ['>']))))) := by
  have e : imgLit = '<' :: "img".toList := by decide
  simp [ISeg.render, e, List.append_assoc]

theorem render_img_ne_nil (pre url post : Str) :
    ISeg.render (.img pre url post) ≠ [] := by
  rw [render_img_head]
  simp

theorem goodWhole_prefix_head {w : Str} (hw : GoodWhole w) {c : Char} {z : Str}
    (h : w <+: c :: z) : c = '<' := by
  obtain ⟨pre, url, post, hok, hwe⟩ := hw
  rw [hwe, render_img_head] at h
  rcases h with ⟨t, ht⟩
  rw [List.cons_append] at ht
  injection ht with h1 _
  exact h1.symm

theorem noWholeStart_of_no_lt {s : Str} (h : '<' ∉ s) : NoWholeStart s := by
  intro u v hv hvne w tail hw hpre
  cases v with
  | nil => exact hvne rfl
  | cons c v' =>
    have hc : c ∈ s := by
      rw [hv]; exact List.mem_append.mpr (Or.inr (List.mem_cons_self _ _))
    have he := goodWhole_prefix_head hw (by simpa using hpre)
    rw [he] at hc
    exact h hc

/-- The inserted tag minus its leading `<`. -/
def imgTagRest (b : Str) : Str :=
  "img src=".toList ++ [qc] ++ b ++ [qc] ++ " style=".toList ++ [qc] ++
    styleVal ++ [qc] ++ " alt=".toList ++ [qc] ++ [qc] ++ "/>".toList

theorem imgTagFor_cons (b : Str) : imgTagFor b = '<' :: imgTagRest b := by
  have e : "<img src=".toList = '<' :: "img src=".toList := by decide
  simp [imgTagFor, imgTagRest, e, List.append_assoc]

/-- The inserted tag minus its trailing `>`. -/
def imgTagBody (b : Str) : Str :=
  "<img src=".toList ++ [qc] ++ b ++ [qc] ++ " style=".toList ++ [qc] ++
    styleVal ++ [qc] ++ " alt=".toList ++ [qc] ++ [qc] ++ ['/']

theorem imgTagFor_body (b : Str) : imgTagFor b = imgTagBody b ++ ['>'] := by
  have e : "/>".toList = ['/'] ++ ['>'] := by decide
  simp [imgTagFor, imgTagBody, e, List.append_assoc]

theorem lt_not_mem_imgTagRest {b : Str} (hb : '<' ∉ b) : '<' ∉ imgTagRest b := by
  simp only [imgTagRest]
  refine List.not_mem_append ?_ (by decide)
  refine List.not_mem_append ?_ (by decide)
  refine List.not_mem_append ?_ (by decide)
  refine List.not_mem_append ?_ (by decide)
  refine List.not_mem_append ?_ (by decide)
  refine List.not_mem_append ?_ (by decide)
  refine List.not_mem_append ?_ (by decide)
  refine List.not_mem_append ?_ (by decide)
  refine List.not_mem_append ?_ (by decide)
  refine List.not_mem_append ?_ hb
  decide

theorem gt_not_mem_imgTagBody {b : Str} (hb : '>' ∉ b) : '>' ∉ imgTagBody b := by
  simp only [imgTagBody]
  refine List.not_mem_append ?_ (by decide)
  refine List.not_mem_append ?_ (by decide)
  refine List.not_mem_append ?_ (by decide)
  refine List.not_mem_append ?_ (by decide)
  refine List.not_mem_append ?_ (by decide)
  refine List.not_mem_append ?_ (by decide)
  refine List.not_mem_append ?_ (by decide)
  refine List.not_mem_append ?_ (by decide)
  refine List.not_mem_append ?_ (by decide)
  refine List.not_mem_append ?_ hb
  decide

/-- Double-quote count, used to tell a rendered source tag apart from
an inserted replacement tag. -/
def qcount (l : Str) : Nat := l.countP (fun c => decide (c = qc))

theorem qcount_append (x y : Str) : qcount (x ++ y) = qcount x + qcount y :=
  List.countP_append _ _ _

theorem qcount_zero {l : Str} (h : qc ∉ l) : qcount l = 0 :=
  List.countP_eq_zero.mpr (fun a ha => by
    simp only [decide_eq_true_eq]
    intro he
    exact h (he ▸ ha))

theorem qcount_render {pre url post : Str} (hpq : qc ∉ pre) (huq : qc ∉ url)
    (hpoq : qc ∉ post) :
    qcount (ISeg.render (.img pre url post)) = 2 := by
  show qcount (imgLit ++ pre ++ srcLit ++ url ++ [qc] ++ post ++ ['>']) = 2
  simp only [qcount_append]
  rw [qcount_zero hpq, qcount_zero huq, qcount_zero hpoq]
  decide

theorem qcount_imgTagFor {b : Str} (hb : qc ∉ b) : qcount (imgTagFor b) = 6 := by
  simp only [imgTagFor, qcount_append]
  rw [qcount_zero hb]
  decide

/-- `>`-separator alignment: if `w>` is a prefix of `v>...` with
`>`-free `w` and `v`, then `v = w`. -/
theorem gt_prefix_eq {w v r : Str} (hqw : '>' ∉ w) (hqv : '>' ∉ v)
    (h : (w ++ ['>']) <+: (v ++ ('>' :: r))) : v = w := by
  induction w generalizing v with
  | nil =>
    cases v with
    | nil => rfl
    | cons c vs =>
      simp only [List.nil_append, List.cons_append] at h
      have := (List.cons_prefix_cons.mp h).1
      exact absurd this.symm (fun he => hqv (he ▸ List.mem_cons_self _ _))
  | cons a ws ih =>
    cases v with
    | nil =>
      simp only [List.cons_append, List.nil_append] at h
      have := (List.cons_prefix_cons.mp h).1
      exact absurd this (fun he => hqw (he ▸ List.mem_cons_self _ _))
    | cons c vs =>
      simp only [List.cons_append] at h
      obtain ⟨hac, h2⟩ := List.cons_prefix_cons.mp h
      subst hac
      rw [ih (fun hh => hqw (List.mem_cons_of_mem _ hh))
        (fun hh => hqv (List.mem_cons_of_mem _ hh)) h2]

/-- No well-formed source tag occurrence starts inside the inserted
replacement tag: interior positions lack the leading `<`, and the full
tag differs because the quote counts disagree (2 in a source tag, 6 in
the replacement). -/
theorem noWholeStart_imgTagFor {b : Str} (hblt : '<' ∉ b) (hbgt : '>' ∉ b)
    (hbq : qc ∉ b) : NoWholeStart (imgTagFor b) := by
  intro u v hv hvne w tail hw hpre
  cases u with
  | nil =>
    simp only [List.nil_append] at hv
    subst hv
    obtain ⟨pre, url, post, hok, hwe⟩ := hw
    obtain ⟨hpre2, hplt, hpgt, hpq, hu, hult, hugt, huq, hueq, hpolt, hpogt, hpoq⟩ := hok
    have hbody : '>' ∉ imgTagBody b := gt_not_mem_imgTagBody hbgt
    have hwB : '>' ∉ (imgLit ++ pre ++ srcLit ++ url ++ [qc] ++ post) := by
      intro hm
      rcases List.mem_append.mp hm with hm | hm
      · rcases List.mem_append.mp hm with hm | hm
        · rcases List.mem_append.mp hm with hm | hm
          · rcases List.mem_append.mp hm with hm | hm
            · rcases List.mem_append.mp hm with hm | hm
              · exact absurd hm (by decide)
              · exact hpgt hm
            · exact absurd hm (by decide)
          · exact hugt hm
        · exact absurd hm (by decide)
      · exact hpogt hm
    rw [hwe] at hpre
    have hrw : ISeg.render (.img pre url post) =
        (imgLit ++ pre ++ srcLit ++ url ++ [qc] ++ post) ++ ['>'] := rfl
    rw [hrw, imgTagFor_body, List.append_assoc] at hpre
    have heq := gt_prefix_eq hwB hbody (by simpa using hpre)
    have c1 : qcount (ISeg.render (.img pre url post)) = 2 :=
      qcount_render hpq huq hpoq
    have c2 : qcount (imgTagFor b) = 6 := qcount_imgTagFor hbq
    rw [hrw] at c1
    rw [imgTagFor_body, heq] at c2
    rw [c2] at c1
    exact absurd c1 (by decide)
  | cons d u' =>
    rcases v with _ | ⟨c, v'⟩
    · exact hvne rfl
    rw [imgTagFor_cons, List.cons_append] at hv
    injection hv with h1 h2
    have hcm : c ∈ imgTagRest b := by
      rw [h2]
      exact List.mem_append.mpr (Or.inr (List.mem_cons_self _ _))
    have hch := goodWhole_prefix_head hw (by simpa using hpre)
    rw [hch] at hcm
    exact lt_not_mem_imgTagRest hblt hcm

/-- `replaceFirst` rewrites exactly the designated occurrence when the
pattern starts nowhere inside the prefix `X`. -/
theorem replaceFirst_at {pat rep X Y : Str} (hne : pat ≠ [])
    (h : ∀ u v, X = u ++ v → v ≠ [] → ¬ pat <+: (v ++ (pat ++ Y))) :
    replaceFirst pat rep (X ++ (pat ++ Y)) = X ++ (rep ++ Y) := by
  induction X with
  | nil =>
    simp only [List.nil_append]
    rcases hp : pat with _ | ⟨p0, ps⟩
    · exact absurd hp hne
    rw [List.cons_append]
    have hcond : (p0 :: ps) <+: (p0 :: (ps ++ Y)) := ⟨Y, rfl⟩
    simp only [replaceFirst, if_pos hcond]
    congr 1
    exact List.drop_left (p0 :: ps) Y
  | cons c X' ih =>
    have hnp : ¬ pat <+: (c :: (X' ++ (pat ++ Y))) := by
      have := h [] (c :: X') (by simp) (by simp)
      simpa using this
    rw [List.cons_append]
    simp only [replaceFirst, if_neg hnp]
    rw [ih (fun u v huv hvne => h (c :: u) v (by rw [huv, List.cons_append]) hvne)]
    rw [List.cons_append]

theorem iprocessed_cons (dl : Str → Option Str) (g : ISeg) (rest : List ISeg) :
    iprocessed dl (g :: rest) = procSeg dl g ++ iprocessed dl rest := by
  simp [iprocessed]

/-- The replacement fold of `processImages`, run over the matches of a
well-formed body prefixed by already-processed output `X`: each match
rewrites its own tag in place. -/
theorem processImages_fold {dl : Str → Option Str} :
    ∀ (segs : List ISeg), (∀ g ∈ segs, isegOk g) →
      (∀ u ∈ imgUrls segs, '<' ∉ ((dl u).getD []) ∧ '>' ∉ ((dl u).getD []) ∧
        qc ∉ ((dl u).getD [])) →
      ∀ X, NoWholeStart X →
        (imgMatches segs).foldl
          (fun res m => match dl m.2 with
            | some b => replaceFirst m.1 (imgTagFor b) res
            | none => replaceFirst m.1 [] res)
          (X ++ irenderAll segs) = X ++ iprocessed dl segs := by
  intro segs
  induction segs with
  | nil =>
    intro _ _ X _
    rfl
  | cons g rest ih =>
    intro hok hdl X hX
    cases g with
    | text s =>
      have hts : '<' ∉ s := hok _ (List.mem_cons_self _ _)
      have e1 : irenderAll (ISeg.text s :: rest) = s ++ irenderAll rest :=
        irenderAll_cons _ _
      have e2 : imgMatches (ISeg.text s :: rest) = imgMatches rest := rfl
      rw [e1, e2, ← List.append_assoc]
      rw [ih (fun g hg => hok g (List.mem_cons_of_mem _ hg))
        (fun u hu => hdl u hu) (X ++ s)
        (noWholeStart_append hX (noWholeStart_of_no_lt hts))]
      rw [iprocessed_cons]
      show (X ++ s) ++ iprocessed dl rest = X ++ (s ++ iprocessed dl rest)
      rw [List.append_assoc]
    | img pre url post =>
      have hokg : imgFieldsOk pre url post := hok _ (List.mem_cons_self _ _)
      have e1 : irenderAll (ISeg.img pre url post :: rest) =
          ISeg.render (.img pre url post) ++ irenderAll rest := irenderAll_cons _ _
      have e2 : imgMatches (ISeg.img pre url post :: rest) =
          (ISeg.render (.img pre url post), url) :: imgMatches rest := rfl
      rcases hdlu : dl url with _ | b
      · rw [e1, e2, List.foldl_cons]
        simp only [hdlu]
        have hrepl : replaceFirst (ISeg.render (.img pre url post)) []
            (X ++ (ISeg.render (.img pre url post) ++ irenderAll rest)) =
            X ++ ([] ++ irenderAll rest) :=
          replaceFirst_at (render_img_ne_nil pre url post)
            (fun u v huv hvne => hX u v huv hvne _ _ ⟨pre, url, post, hokg, rfl⟩)
        rw [hrepl, List.nil_append]
        rw [ih (fun g hg => hok g (List.mem_cons_of_mem _ hg))
          (fun u hu2 => hdl u (List.mem_cons_of_mem _ hu2)) X hX]
        rw [iprocessed_cons]
        have hp0 : procSeg dl (ISeg.img pre url post) = [] := by
          simp [procSeg, hdlu]
        rw [hp0, List.nil_append]
      · rw [e1, e2, List.foldl_cons]
        simp only [hdlu]
        have hb := hdl url (List.mem_cons_self _ _)
        rw [hdlu] at hb
        simp only [Option.getD_some] at hb
        obtain ⟨hblt, hbgt, hbq⟩ := hb
        have hrepl : replaceFirst (ISeg.render (.img pre url post)) (imgTagFor b)
            (X ++ (ISeg.render (.img pre url post) ++ irenderAll rest)) =
            X ++ (imgTagFor b ++ irenderAll rest) :=
          replaceFirst_at (render_img_ne_nil pre url post)
            (fun u v huv hvne => hX u v huv hvne _ _ ⟨pre, url, post, hokg, rfl⟩)
        rw [hrepl, ← List.append_assoc]
        rw [ih (fun g hg => hok g (List.mem_cons_of_mem _ hg))
          (fun u hu2 => hdl u (List.mem_cons_of_mem _ hu2)) (X ++ imgTagFor b)
          (noWholeStart_append hX (noWholeStart_imgTagFor hblt hbgt hbq))]
        rw [iprocessed_cons]
        have hp0 : procSeg dl (ISeg.img pre url post) = imgTagFor b := by
          simp [procSeg, hdlu]
        rw [hp0, List.append_assoc]

theorem procSeg_infix {dl : Str → Option Str} {g : ISeg} {segs : List ISeg}
    (h : g ∈ segs) : procSeg dl g <:+: iprocessed dl segs := by
  induction segs with
  | nil => simp at h
  | cons a rest ih =>
    rcases List.mem_cons.mp h with h1 | h2
    · subst h1
      rw [iprocessed_cons]
      exact (List.prefix_append _ _).isInfix
    · rw [iprocessed_cons]
      obtain ⟨s1, s2, he⟩ := ih h2
      exact ⟨procSeg dl a ++ s1, s2, by rw [← he]; simp [List.append_assoc]⟩

/-- Claim C3 (amended): image substitution.  Over a well-formed article
body (markup-free text interleaved with well-formed `<img>` tags),
compile-epub.js `processImages` rewrites each matched tag in place:
a tag whose source was downloaded becomes the base64-embedding
`<img src="..." style="..." alt=""/>` tag (and that embedded form
occurs in the output), while a tag whose download failed is removed
outright — the output is exactly the interleaving of the text segments
with the surviving embedded tags.  The index.js variant, by contrast,
substitutes only successfully downloaded URLs, so when every download
failed the body is returned unchanged and failed remote references
remain (see the counterexample). -/
theorem c3_image_substitution_amended {dl : Str → Option Str} {segs : List ISeg}
    (hok : ∀ g ∈ segs, isegOk g)
    (hdl : ∀ u ∈ imgUrls segs, '<' ∉ ((dl u).getD []) ∧ '>' ∉ ((dl u).getD []) ∧
      qc ∉ ((dl u).getD [])) :
    processImages (irenderAll segs) dl = iprocessed dl segs ∧
    (∀ pre url post b, ISeg.img pre url post ∈ segs → dl url = some b →
      imgTagFor b <:+: processImages (irenderAll segs) dl) ∧
    (∀ content : Str, replaceLoopIndex content [] = content) := by
  have hmain : processImages (irenderAll segs) dl = iprocessed dl segs := by
    simp only [processImages]
    rw [allImgMatches_irender hok]
    have h2 := processImages_fold segs hok hdl [] noWholeStart_nil
    simpa using h2
  refine ⟨hmain, ?_, fun content => rfl⟩
  intro pre url post b hmem hdlu
  rw [hmain]
  have hpr : procSeg dl (ISeg.img pre url post) = imgTagFor b := by
    simp [procSeg, hdlu]
  rw [← hpr]
  exact procSeg_infix hmem

/-- A concrete well-formed body: one image that downloads and one whose
download failed. -/
def c3SegsEx : List ISeg :=
  [ISeg.text "Intro ".toList,
   ISeg.img " ".toList "https://a/x.png".toList "".toList,
   ISeg.text " middle ".toList,
   ISeg.img " class=x ".toList "https://a/y.png".toList " alt=z".toList]

def c3DlEx : Str → Option Str := fun u =>
  if u = "https://a/x.png".toList then
    some "data:image/png;base64,iVBORw0KGgo".toList
  else none

theorem c3_image_substitution_witness :
    processImages (irenderAll c3SegsEx) c3DlEx = iprocessed c3DlEx c3SegsEx :=
  (c3_image_substitution_amended (by decide) (by decide)).1
